import Mathlib

set_option maxHeartbeats 4000000

/-!
Verification of the Jellyfish Merkle tree iterator
(src/jellyfish_merkle/iterator/mod.rs).

The iterator performs a depth-first traversal over a 16-ary trie whose
nodes are fetched from an external node store.  The file embeds:

* the bit-level bookkeeping (`NodeVisitInfo` with its 16-bit existence
  bitmap and single-bit cursor),
* the seek algorithm (`JellyfishMerkleIterator.new`), the shared stack
  cleanup (`cleanup_stack`) and the advance/yield algorithm (`next`),
* the owning variant (`JellyfishMerkleIntoIterator`), which duplicates
  the borrowed one in the source.

Modelling conventions:

* `u16` values are `Nat`s kept below `2 ^ 16`; shifts that wrap in Rust
  are written with an explicit `% 65536`.
* A Rust panic (a failed `assert!`/`expect`/`unreachable!`) and a
  nonterminating loop are both modelled as `Except.error (p : Panic)`
  carrying the panic message; ordinary `anyhow::Result` failures are the
  inner `Except String`.
* The node store (`TreeReader`) is a pure function from node keys to
  `Result<Node>`; the source reads through `&R`/`R`, which is
  deterministic for a fixed snapshot, so a pure function is faithful.
  The two ownership shapes therefore differ only in which duplicated
  code path runs; both are embedded separately below.
* The unbounded `loop` in `next` takes an explicit fuel argument; fuel
  exhaustion is reported as a `Panic` and theorems supply enough fuel.
-/

/-- One 4-bit symbol (0–15) of a key fingerprint; selects one of the 16
child slots of an internal node. -/
abbrev Nibble := Fin 16

/-- Modelled from the spec: the Key Fingerprint (`HashValue`) is a
fixed-length, totally ordered sequence of nibbles, consumed left to
right, one symbol per tree level.  We represent it directly by its
nibble sequence. -/
abbrev HashValue := List Nibble

/-- Lexicographic strict comparison of fingerprints.  Modelled from the
spec: the total order over fingerprints induces the ascending key order
of the iterator (in the source this is the `Ord` instance of the
32-byte `HashValue`, which is lexicographic on bytes, hence on
nibbles). -/
def hashLt : HashValue → HashValue → Bool
  | [], [] => false
  | [], _ :: _ => true
  | _ :: _, [] => false
  | x :: xs, y :: ys => if x < y then true else if y < x then false else hashLt xs ys

/-- Non-strict fingerprint comparison, defined from `hashLt` by
totality of the lexicographic order. -/
def hashLe (a b : HashValue) : Bool := !hashLt b a

/-- Modelled from the spec: `SMTObject` pairs a domain object with its
fingerprint; `merkle_hash` is the (pure, deterministic) Key Fingerprint
mapping, so we carry its value alongside the object. -/
structure SMTObject (α : Type) where
  origin : α
  hash : HashValue
  deriving DecidableEq

/-- The `merkle_hash` of an `SMTObject`. -/
def SMTObject.merkle_hash {α : Type} (o : SMTObject α) : HashValue := o.hash

/-- Node identifiers (the `HashValue` keys of the node store).  The
iterator never inspects them, so they are modelled as opaque `Nat`
identifiers. -/
abbrev NodeKey := Nat

/-- Modelled from the spec: a populated branch slot holds a reference
(node identifier) to a child node; the iterator reads its `hash`
field. -/
structure Child where
  hash : NodeKey
  deriving DecidableEq

/-- Modelled from the spec: a Branch node has up to 16 child slots
indexed by nibble value. -/
structure InternalNode where
  children : Nibble → Option Child

/-- Child lookup by nibble (`InternalNode::child`). -/
def InternalNode.child (nd : InternalNode) (i : Nibble) : Option Child :=
  nd.children i

/-- Child lookup with a plain `Nat` index; positions outside 0–15 hold
no child. -/
def InternalNode.childAt (nd : InternalNode) (i : Nat) : Option Child :=
  if h : i < 16 then nd.children ⟨i, h⟩ else none

/-- Low `fuel` bits of the existence bitmap starting at slot `i`,
least significant bit first. -/
def bitmapFrom (nd : InternalNode) (i : Nat) : Nat → Nat
  | 0 => 0
  | fuel + 1 =>
    (if (nd.childAt i).isSome then 1 else 0) + 2 * bitmapFrom nd (i + 1) fuel

/-- Modelled from the spec: the Existence Bitmap is a 16-bit value whose
bit k is set exactly when the child at nibble k exists (the first
component of the source's `generate_bitmaps`). -/
def InternalNode.generate_bitmaps (nd : InternalNode) : Nat :=
  bitmapFrom nd 0 16

/-- Modelled from the spec: a Terminal node holds one stored key-value
pair (the key carries its fingerprint via `SMTObject`). -/
structure LeafNode (K V : Type) where
  key : SMTObject K
  value : SMTObject V
  deriving DecidableEq

/-- The three node shapes stored by the node store. -/
inductive Node (K V : Type) where
  | Internal (node : InternalNode)
  | Leaf (node : LeafNode K V)
  | Null

/-- Modelled from the spec: the Node Store contract — one operation
`get_node(identifier) -> Node | StorageError`, deterministic for a
fixed snapshot. -/
abbrev TreeReader (K V : Type) := NodeKey → Except String (Node K V)

/-- A Rust panic (failed assertion / `expect` / `unreachable!`) or a
provably nonterminating loop, with its message. -/
structure Panic where
  message : String
  deriving DecidableEq

/-- Least set-bit position of `x` at or above `p`, scanning `fuel`
positions; returns `p + fuel`-style default 16 behaviour through
`tz16`. -/
def tzAux (x : Nat) : Nat → Nat → Nat
  | 0, p => p
  | fuel + 1, p => if x.testBit p then p else tzAux x fuel (p + 1)

/-- `u16::trailing_zeros`: least set-bit position of `x`, or 16 when no
bit below 16 is set. -/
def tz16 (x : Nat) : Nat := tzAux x 16 0

/-- Greatest set-bit position of `x` at or below `p` (0 when none). -/
def hbAux (x : Nat) : Nat → Nat
  | 0 => 0
  | p + 1 => if x.testBit (p + 1) then p + 1 else hbAux x p

/-- `u16::leading_zeros`: 16 minus the bit length of `x` (16 for 0). -/
def lz16 (x : Nat) : Nat := if x = 0 then 16 else 15 - hbAux x 15

/-- The source's cursor-scanning loop `while v & bitmap == 0 { v <<= 1 }`
on a `u16` value `v`: either stops at the first value whose bit is in
`bitmap`, or diverges once the bit is shifted out (`none`).  17 fuel
steps decide the outcome for any `v < 2 ^ 16`. -/
def whileScan (bitmap : Nat) : Nat → Nat → Option Nat
  | _, 0 => none
  | v, fuel + 1 =>
    if v &&& bitmap ≠ 0 then some v
    else if v = 0 then none
    else whileScan bitmap ((v <<< 1) % 65536) fuel

/-- `NodeVisitInfo` keeps track of the status of an internal node during
the iteration: which children exist (`children_bitmap`) and which one is
next to visit (`next_child_to_visit`, a single-bit cursor). -/
structure NodeVisitInfo where
  node_key : NodeKey
  node : InternalNode
  children_bitmap : Nat
  next_child_to_visit : Nat

/-- Constructs a `NodeVisitInfo` pointing at the leftmost child
(`1 << children_bitmap.trailing_zeros()`).  A zero bitmap makes the
shift amount 16, which overflows the `u16` shift — a panic. -/
def NodeVisitInfo.new (node_key : NodeKey) (node : InternalNode) :
    Except Panic NodeVisitInfo :=
  let children_bitmap := node.generate_bitmaps
  if tz16 children_bitmap ≤ 15 then
    .ok { node_key := node_key, node := node, children_bitmap := children_bitmap,
          next_child_to_visit := 1 <<< tz16 children_bitmap }
  else
    .error ⟨"attempt to shift left with overflow"⟩

/-- Same as `new` but points the cursor at a given nibble, moved up to
the next existing child when that slot is empty; the scan diverges when
no child at or above the nibble exists. -/
def NodeVisitInfo.new_next_child_to_visit (node_key : NodeKey)
    (node : InternalNode) (next_child_to_visit : Nibble) :
    Except Panic NodeVisitInfo :=
  let children_bitmap := node.generate_bitmaps
  match whileScan children_bitmap (1 <<< next_child_to_visit.val) 17 with
  | some v =>
    .ok { node_key := node_key, node := node, children_bitmap := children_bitmap,
          next_child_to_visit := v }
  | none => .error ⟨"nonterminating scan in new_next_child_to_visit"⟩

/-- Whether the next child to visit is the rightmost existing one.  The
source first asserts that the cursor does not lie beyond the highest
existing child. -/
def NodeVisitInfo.is_rightmost (i : NodeVisitInfo) : Except Panic Bool :=
  if lz16 i.next_child_to_visit ≥ lz16 i.children_bitmap then
    .ok (lz16 i.next_child_to_visit == lz16 i.children_bitmap)
  else
    .error ⟨"assertion failed in is_rightmost"⟩

/-- Advances the cursor to the next existing child on the right; panics
when already rightmost, and (like the source loop) diverges when the
cursor is shifted out without meeting a set bit. -/
def NodeVisitInfo.advance (i : NodeVisitInfo) : Except Panic NodeVisitInfo :=
  match i.is_rightmost with
  | .error p => .error p
  | .ok true => .error ⟨"Advancing past rightmost child."⟩
  | .ok false =>
    match whileScan i.children_bitmap ((i.next_child_to_visit <<< 1) % 65536) 17 with
    | some v => .ok { i with next_child_to_visit := v }
    | none => .error ⟨"nonterminating scan in advance"⟩

/-- The borrowed-store iterator state.  The `reader: &R` field of the
source struct is passed explicitly to the operations (the store is
immutable for the iterator's lifetime), and the `PhantomData` markers
carry no state. -/
structure JellyfishMerkleIterator (K V : Type) where
  state_root_hash : NodeKey
  parent_stack : List NodeVisitInfo
  done : Bool

namespace JellyfishMerkleIterator

variable {K V : Type}

/-- Pops exhausted frames and advances the first frame that still has an
unvisited child (`JellyfishMerkleIterator::cleanup_stack`).  The stack
is a Lean list with its top at the head. -/
def cleanup_stack : List NodeVisitInfo → Except Panic (List NodeVisitInfo)
  | [] => .ok []
  | info :: rest =>
    match info.is_rightmost with
    | .error p => .error p
    | .ok true => cleanup_stack rest
    | .ok false =>
      match info.advance with
      | .error p => .error p
      | .ok info2 => .ok (info2 :: rest)

/-- The `while let Node::Internal(..) = reader.get_node(..)?` seek loop
of `new`, by recursion on the remaining nibbles of the starting key's
fingerprint (the source consumes one nibble per iteration and panics
when the nibble iterator is exhausted).  Returns the final
`(parent_stack, done)` pair. -/
def seekLoop (reader : TreeReader K V) (starting_key_hash : HashValue) :
    List Nibble → NodeKey → List NodeVisitInfo →
    Except Panic (Except String (List NodeVisitInfo × Bool))
  | nibbles, current_node_key, parent_stack =>
    match reader current_node_key with
    | .error e => .ok (.error e)
    | .ok (.Internal internal_node) =>
      match nibbles with
      | [] => .error ⟨"Should have enough nibbles."⟩
      | child_index :: rest =>
        match internal_node.child child_index with
        | some child =>
          match NodeVisitInfo.new_next_child_to_visit current_node_key
              internal_node child_index with
          | .error p => .error p
          | .ok info => seekLoop reader starting_key_hash rest child.hash
              (info :: parent_stack)
        | none =>
          let bitmap := internal_node.generate_bitmaps
          if bitmap = 0 then .error ⟨"attempt to subtract with overflow"⟩
          else if child_index.val < 15 - lz16 bitmap then
            match NodeVisitInfo.new_next_child_to_visit current_node_key
                internal_node child_index with
            | .error p => .error p
            | .ok info => .ok (.ok (info :: parent_stack, false))
          else
            match cleanup_stack parent_stack with
            | .error p => .error p
            | .ok st => .ok (.ok (st, false))
    | .ok _ =>
      match reader current_node_key with
      | .error e => .ok (.error e)
      | .ok (.Internal _) => .error ⟨"Should have reached the bottom of the tree."⟩
      | .ok (.Leaf leaf_node) =>
        if hashLt leaf_node.key.merkle_hash starting_key_hash then
          match cleanup_stack parent_stack with
          | .error p => .error p
          | .ok st => .ok (.ok (st, st.isEmpty))
        else .ok (.ok (parent_stack, false))
      | .ok .Null => .ok (.ok (parent_stack, true))

/-- Constructs a new iterator positioned so that the following `next`
call yields the smallest key greater than or equal to
`starting_key` (`JellyfishMerkleIterator::new`). -/
def new (reader : TreeReader K V) (state_root_hash : NodeKey)
    (starting_key : SMTObject K) :
    Except Panic (Except String (JellyfishMerkleIterator K V)) :=
  let starting_key_hash := starting_key.merkle_hash
  match seekLoop reader starting_key_hash starting_key_hash state_root_hash [] with
  | .error p => .error p
  | .ok (.error e) => .ok (.error e)
  | .ok (.ok (parent_stack, done)) =>
    .ok (.ok { state_root_hash := state_root_hash, parent_stack := parent_stack,
               done := done })

/-- The unbounded descent `loop` of `next`, with explicit fuel.  Each
iteration reads the cursor child of the top frame: an internal node is
pushed with its cursor at the leftmost child, a leaf is yielded after
`cleanup_stack`, and a null node or store error is returned as a failed
pull with the frames pushed so far still on the stack. -/
def descendLoop (reader : TreeReader K V) :
    List NodeVisitInfo → Nat →
    Except Panic (Option (Except String (SMTObject K × SMTObject V)) × List NodeVisitInfo)
  | _, 0 => .error ⟨"iteration fuel exhausted"⟩
  | stack, fuel + 1 =>
    match stack with
    | [] => .error ⟨"We have checked that self.parent_stack is not empty."⟩
    | info :: rest =>
      if h16 : tz16 info.next_child_to_visit < 16 then
        match info.node.child ⟨tz16 info.next_child_to_visit, h16⟩ with
        | none => .error ⟨"Child should exist."⟩
        | some child =>
          match reader child.hash with
          | .ok (.Internal internal_node) =>
            match NodeVisitInfo.new child.hash internal_node with
            | .error p => .error p
            | .ok visit_info => descendLoop reader (visit_info :: info :: rest) fuel
          | .ok (.Leaf leaf_node) =>
            match cleanup_stack (info :: rest) with
            | .error p => .error p
            | .ok st => .ok (some (.ok (leaf_node.key, leaf_node.value)), st)
          | .ok .Null =>
            .ok (some (.error "Should not reach a null node."), info :: rest)
          | .error e => .ok (some (.error e), info :: rest)
      else .error ⟨"Nibble index out of range"⟩

/-- One pull of the iterator (`Iterator::next`).  Returns the yielded
item (`none` when the iteration is exhausted) together with the next
state. -/
def next (reader : TreeReader K V) (fuel : Nat) (s : JellyfishMerkleIterator K V) :
    Except Panic (Option (Except String (SMTObject K × SMTObject V)) ×
      JellyfishMerkleIterator K V) :=
  if s.done then .ok (none, s)
  else
    match s.parent_stack with
    | [] =>
      match reader s.state_root_hash with
      | .ok (.Leaf leaf_node) =>
        .ok (some (.ok (leaf_node.key, leaf_node.value)), { s with done := true })
      | .ok (.Internal _) => .ok (none, s)
      | .ok .Null => .error ⟨"We would have set done to true in new."⟩
      | .error e => .ok (some (.error e), s)
    | _ :: _ =>
      match descendLoop reader s.parent_stack fuel with
      | .error p => .error p
      | .ok (item, st) => .ok (item, { s with parent_stack := st })

/-- Runs `n` successive pulls, collecting the items in order. -/
def runPulls (reader : TreeReader K V) (fuel : Nat) :
    JellyfishMerkleIterator K V → Nat →
    Except Panic (List (Option (Except String (SMTObject K × SMTObject V))) ×
      JellyfishMerkleIterator K V)
  | s, 0 => .ok ([], s)
  | s, n + 1 =>
    match next reader fuel s with
    | .error p => .error p
    | .ok (item, s1) =>
      match runPulls reader fuel s1 n with
      | .error p => .error p
      | .ok (items, s2) => .ok (item :: items, s2)

end JellyfishMerkleIterator

/-- The owning-store iterator state (`JellyfishMerkleIntoIterator`);
the source duplicates the whole borrowed implementation with
`reader: R` held by value. -/
structure JellyfishMerkleIntoIterator (K V : Type) where
  state_root_hash : NodeKey
  parent_stack : List NodeVisitInfo
  done : Bool

namespace JellyfishMerkleIntoIterator

variable {K V : Type}

/-- Duplicate of the borrowed iterator's `cleanup_stack` (the source
repeats the function verbatim in the owning variant). -/
def cleanup_stack : List NodeVisitInfo → Except Panic (List NodeVisitInfo)
  | [] => .ok []
  | info :: rest =>
    match info.is_rightmost with
    | .error p => .error p
    | .ok true => cleanup_stack rest
    | .ok false =>
      match info.advance with
      | .error p => .error p
      | .ok info2 => .ok (info2 :: rest)

/-- The seek loop of `JellyfishMerkleIntoIterator::new`; identical to
the borrowed variant's loop except that the starting fingerprint is the
raw `starting_key: HashValue` parameter. -/
def seekLoop (reader : TreeReader K V) (starting_key : HashValue) :
    List Nibble → NodeKey → List NodeVisitInfo →
    Except Panic (Except String (List NodeVisitInfo × Bool))
  | nibbles, current_node_key, parent_stack =>
    match reader current_node_key with
    | .error e => .ok (.error e)
    | .ok (.Internal internal_node) =>
      match nibbles with
      | [] => .error ⟨"Should have enough nibbles."⟩
      | child_index :: rest =>
        match internal_node.child child_index with
        | some child =>
          match NodeVisitInfo.new_next_child_to_visit current_node_key
              internal_node child_index with
          | .error p => .error p
          | .ok info => seekLoop reader starting_key rest child.hash
              (info :: parent_stack)
        | none =>
          let bitmap := internal_node.generate_bitmaps
          if bitmap = 0 then .error ⟨"attempt to subtract with overflow"⟩
          else if child_index.val < 15 - lz16 bitmap then
            match NodeVisitInfo.new_next_child_to_visit current_node_key
                internal_node child_index with
            | .error p => .error p
            | .ok info => .ok (.ok (info :: parent_stack, false))
          else
            match cleanup_stack parent_stack with
            | .error p => .error p
            | .ok st => .ok (.ok (st, false))
    | .ok _ =>
      match reader current_node_key with
      | .error e => .ok (.error e)
      | .ok (.Internal _) => .error ⟨"Should have reached the bottom of the tree."⟩
      | .ok (.Leaf leaf_node) =>
        if hashLt leaf_node.key.merkle_hash starting_key then
          match cleanup_stack parent_stack with
          | .error p => .error p
          | .ok st => .ok (.ok (st, st.isEmpty))
        else .ok (.ok (parent_stack, false))
      | .ok .Null => .ok (.ok (parent_stack, true))

/-- Constructs the owning iterator from a raw starting fingerprint
(`JellyfishMerkleIntoIterator::new`). -/
def new (reader : TreeReader K V) (state_root_hash : NodeKey)
    (starting_key : HashValue) :
    Except Panic (Except String (JellyfishMerkleIntoIterator K V)) :=
  match seekLoop reader starting_key starting_key state_root_hash [] with
  | .error p => .error p
  | .ok (.error e) => .ok (.error e)
  | .ok (.ok (parent_stack, done)) =>
    .ok (.ok { state_root_hash := state_root_hash, parent_stack := parent_stack,
               done := done })

/-- Duplicate of the borrowed iterator's descent loop. -/
def descendLoop (reader : TreeReader K V) :
    List NodeVisitInfo → Nat →
    Except Panic (Option (Except String (SMTObject K × SMTObject V)) × List NodeVisitInfo)
  | _, 0 => .error ⟨"iteration fuel exhausted"⟩
  | stack, fuel + 1 =>
    match stack with
    | [] => .error ⟨"We have checked that self.parent_stack is not empty."⟩
    | info :: rest =>
      if h16 : tz16 info.next_child_to_visit < 16 then
        match info.node.child ⟨tz16 info.next_child_to_visit, h16⟩ with
        | none => .error ⟨"Child should exist."⟩
        | some child =>
          match reader child.hash with
          | .ok (.Internal internal_node) =>
            match NodeVisitInfo.new child.hash internal_node with
            | .error p => .error p
            | .ok visit_info => descendLoop reader (visit_info :: info :: rest) fuel
          | .ok (.Leaf leaf_node) =>
            match cleanup_stack (info :: rest) with
            | .error p => .error p
            | .ok st => .ok (some (.ok (leaf_node.key, leaf_node.value)), st)
          | .ok .Null =>
            .ok (some (.error "Should not reach a null node."), info :: rest)
          | .error e => .ok (some (.error e), info :: rest)
      else .error ⟨"Nibble index out of range"⟩

/-- One pull of the owning iterator (`Iterator::next`). -/
def next (reader : TreeReader K V) (fuel : Nat) (s : JellyfishMerkleIntoIterator K V) :
    Except Panic (Option (Except String (SMTObject K × SMTObject V)) ×
      JellyfishMerkleIntoIterator K V) :=
  if s.done then .ok (none, s)
  else
    match s.parent_stack with
    | [] =>
      match reader s.state_root_hash with
      | .ok (.Leaf leaf_node) =>
        .ok (some (.ok (leaf_node.key, leaf_node.value)), { s with done := true })
      | .ok (.Internal _) => .ok (none, s)
      | .ok .Null => .error ⟨"We would have set done to true in new."⟩
      | .error e => .ok (some (.error e), s)
    | _ :: _ =>
      match descendLoop reader s.parent_stack fuel with
      | .error p => .error p
      | .ok (item, st) => .ok (item, { s with parent_stack := st })

/-- Runs `n` successive pulls of the owning iterator. -/
def runPulls (reader : TreeReader K V) (fuel : Nat) :
    JellyfishMerkleIntoIterator K V → Nat →
    Except Panic (List (Option (Except String (SMTObject K × SMTObject V))) ×
      JellyfishMerkleIntoIterator K V)
  | s, 0 => .ok ([], s)
  | s, n + 1 =>
    match next reader fuel s with
    | .error p => .error p
    | .ok (item, s1) =>
      match runPulls reader fuel s1 n with
      | .error p => .error p
      | .ok (items, s2) => .ok (item :: items, s2)

end JellyfishMerkleIntoIterator

/-! ## Semantic layer

The stored key-value pairs of a snapshot, the well-formedness of a
snapshot, and the list of leaves a given iterator state has still to
yield.  These are specification artefacts used to state and prove the
functional-correctness claims; they are not part of the embedded
code. -/

/-- Leaves found through the child slots `i, i+1, …, i+cnt-1` of an
internal node, in ascending slot order, where `g` computes the leaves
below one child. -/
def childRange {K V : Type} (nd : InternalNode)
    (g : NodeKey → List (LeafNode K V)) : Nat → Nat → List (LeafNode K V)
  | _, 0 => []
  | i, cnt + 1 =>
    (match nd.childAt i with
     | some c => g c.hash
     | none => []) ++ childRange nd g (i + 1) cnt

/-- All leaves of the subtree rooted at node `k`, in ascending child
order, exploring at most `fuel` levels. -/
def leavesUnder {K V : Type} (reader : TreeReader K V) :
    Nat → NodeKey → List (LeafNode K V)
  | 0, _ => []
  | fuel + 1, k =>
    match reader k with
    | .ok (.Leaf l) => [l]
    | .ok (.Internal nd) => childRange nd (leavesUnder reader fuel) 0 16
    | _ => []

/-- Helper of `wfNode`: checks the children at slots `i … i+cnt-1`. -/
def wfChildrenAux (g : NodeKey → List Nibble → Bool) :
    InternalNode → List Nibble → Nat → Nat → Bool
  | _, _, _, 0 => true
  | nd, pre, i, cnt + 1 =>
    (if h : i < 16 then
      match nd.children ⟨i, h⟩ with
      | some c => g c.hash (pre ++ [⟨i, h⟩])
      | none => true
     else true) && wfChildrenAux g nd pre (i + 1) cnt

/-- Well-formedness of the subtree rooted at `k` sitting at nibble path
`pre`: every reachable read succeeds and is non-null, every internal
node has at least one child and at most `fuel` further levels below it,
and every leaf's fingerprint has length `hashLen` and starts with the
path leading to it. -/
def wfNode {K V : Type} (reader : TreeReader K V) (hashLen : Nat) :
    Nat → NodeKey → List Nibble → Bool
  | 0, k, pre =>
    match reader k with
    | .ok (.Leaf l) =>
      decide (l.key.hash.length = hashLen) && decide (l.key.hash.take pre.length = pre)
    | _ => false
  | fuel + 1, k, pre =>
    match reader k with
    | .ok (.Leaf l) =>
      decide (l.key.hash.length = hashLen) && decide (l.key.hash.take pre.length = pre)
    | .ok (.Internal nd) =>
      decide (nd.generate_bitmaps ≠ 0) &&
        wfChildrenAux (wfNode reader hashLen fuel) nd pre 0 16
    | _ => false

/-- Helper of `depthLe`: checks the children at slots `i … i+cnt-1`. -/
def depthChildrenAux (g : NodeKey → Bool) : InternalNode → Nat → Nat → Bool
  | _, _, 0 => true
  | nd, i, cnt + 1 =>
    (match nd.childAt i with
     | some c => g c.hash
     | none => true) && depthChildrenAux g nd (i + 1) cnt

/-- No chain of more than `fuel` internal nodes runs downward from node
`k`.  This is the precondition of claim C10: every root-to-leaf path
consumes at most `fuel` nibbles during the seek. -/
def depthLe {K V : Type} (reader : TreeReader K V) : Nat → NodeKey → Bool
  | 0, k =>
    match reader k with
    | .ok (.Internal _) => false
    | _ => true
  | fuel + 1, k =>
    match reader k with
    | .ok (.Internal nd) => depthChildrenAux (depthLe reader fuel) nd 0 16
    | _ => true

/-- Nibble position of a frame's single-bit cursor. -/
def cursorIndex (f : NodeVisitInfo) : Nat := tz16 f.next_child_to_visit

/-- Leaves below the children of `nd` at slots `lo … 15`. -/
def leavesFrom {K V : Type} (reader : TreeReader K V) (fuel : Nat)
    (nd : InternalNode) (lo : Nat) : List (LeafNode K V) :=
  childRange nd (leavesUnder reader fuel) lo (16 - lo)

/-- Leaves below a frame's node from the cursor child (inclusive)
rightward: what the depth-first walk has still to visit below and to
the right of the cursor at this level. -/
def frameFrom {K V : Type} (reader : TreeReader K V) (fuel : Nat)
    (f : NodeVisitInfo) : List (LeafNode K V) :=
  leavesFrom reader fuel f.node (cursorIndex f)

/-- Leaves below a frame's node strictly to the right of the cursor
child. -/
def frameAfter {K V : Type} (reader : TreeReader K V) (fuel : Nat)
    (f : NodeVisitInfo) : List (LeafNode K V) :=
  leavesFrom reader fuel f.node (cursorIndex f + 1)

/-- Remaining leaves of a stack counting every frame strictly after its
cursor (the situation right after the cursor subtree of the top frame
has been fully consumed). -/
def SRstrict {K V : Type} (reader : TreeReader K V) (fuel : Nat) :
    List NodeVisitInfo → List (LeafNode K V)
  | [] => []
  | f :: rest => frameAfter reader fuel f ++ SRstrict reader fuel rest

/-- Remaining leaves of a non-exhausted stack: the top frame contributes
from its cursor child inclusive, the frames below it only what lies
strictly to the right of their cursors. -/
def SR {K V : Type} (reader : TreeReader K V) (fuel : Nat) :
    List NodeVisitInfo → List (LeafNode K V)
  | [] => []
  | f :: rest => frameFrom reader fuel f ++ SRstrict reader fuel rest

/-- The list of leaves an iterator state has still to yield, in yield
order: nothing once `done`, the root leaf for the empty stack of a
single-leaf tree, and the stack's remaining leaves otherwise. -/
def SemL {K V : Type} (reader : TreeReader K V) (fuel : Nat)
    (s : JellyfishMerkleIterator K V) : List (LeafNode K V) :=
  if s.done then []
  else
    match s.parent_stack with
    | [] =>
      match reader s.state_root_hash with
      | .ok (.Leaf l) => [l]
      | _ => []
    | _ :: _ => SR reader fuel s.parent_stack

/-- The cursor invariant of a traversal frame: `next_child_to_visit`
has exactly one set bit, and that bit is also set in
`children_bitmap` (hence lies at or below its highest set bit). -/
def FrameInv (f : NodeVisitInfo) : Prop :=
  ∃ c, c < 16 ∧ f.next_child_to_visit = 2 ^ c ∧ f.children_bitmap.testBit c = true

/-- Node key the child at the cursor of the top frame points to
(the node the next descent starts from); the root when the stack is
empty. -/
def stackParentId (root : NodeKey) : List NodeVisitInfo → Option NodeKey
  | [] => some root
  | g :: _ => (g.node.childAt (cursorIndex g)).map Child.hash

/-- Structural well-formedness of a traversal stack (top at the head):
every frame satisfies the cursor invariant, caches the bitmap of its
own internal node as read from the store, and sits at the node referred
to by the cursor of the frame below it (the bottom frame sits at the
root). -/
inductive StackWF {K V : Type} (reader : TreeReader K V) (root : NodeKey) :
    List NodeVisitInfo → Prop
  | nil : StackWF reader root []
  | cons {f : NodeVisitInfo} {rest : List NodeVisitInfo} :
      StackWF reader root rest →
      stackParentId root rest = some f.node_key →
      reader f.node_key = .ok (.Internal f.node) →
      f.children_bitmap = f.node.generate_bitmaps →
      FrameInv f →
      StackWF reader root (f :: rest)

/-- Nibble path from the root through the cursors of a stack's frames
(bottom first), ending at the node `stackParentId` refers to. -/
def pathTo : List NodeVisitInfo → List Nibble
  | [] => []
  | g :: rest => pathTo rest ++ [⟨cursorIndex g % 16, Nat.mod_lt _ (by decide)⟩]

/-! ## Bit-level lemmas -/

lemma tzAux_eq_of (x : Nat) : ∀ fuel p c, p ≤ c → c < p + fuel →
    x.testBit c = true → (∀ j, p ≤ j → j < c → x.testBit j = false) →
    tzAux x fuel p = c := by
  intro fuel
  induction fuel with
  | zero => intro p c h1 h2 _ _; omega
  | succ fuel ih =>
    intro p c h1 h2 hc hlow
    by_cases hp : x.testBit p
    · have hpc : p = c := by
        rcases Nat.lt_or_ge p c with h | h
        · have := hlow p le_rfl h; simp [this] at hp
        · omega
      subst hpc
      simp [tzAux, hp]
    · have hpc : p < c := by
        rcases Nat.lt_or_ge p c with h | h
        · exact h
        · have : p = c := by omega
          rw [this] at hp; exact absurd hc hp
      have := ih (p + 1) c (by omega) (by omega) hc
        (fun j hj1 hj2 => hlow j (by omega) hj2)
      simp [tzAux, hp, this]

lemma tzAux_eq_of_none (x : Nat) : ∀ fuel p,
    (∀ j, p ≤ j → j < p + fuel → x.testBit j = false) →
    tzAux x fuel p = p + fuel := by
  intro fuel
  induction fuel with
  | zero => intro p _; simp [tzAux]
  | succ fuel ih =>
    intro p hlow
    have hp : x.testBit p = false := hlow p le_rfl (by omega)
    have := ih (p + 1) (fun j hj1 hj2 => hlow j (by omega) (by omega))
    simp [tzAux, hp, this]; omega

lemma tz16_eq_of (x c : Nat) (hc : c < 16) (hbit : x.testBit c = true)
    (hlow : ∀ j, j < c → x.testBit j = false) : tz16 x = c :=
  tzAux_eq_of x 16 0 c (Nat.zero_le c) (by omega) hbit
    (fun j _ hj2 => hlow j hj2)

lemma tz16_two_pow (c : Nat) (hc : c < 16) : tz16 (2 ^ c) = c :=
  tz16_eq_of _ c hc Nat.testBit_two_pow_self
    (fun j hj => Nat.testBit_two_pow_of_ne (by omega))

lemma exists_testBit_of_ne_zero (x : Nat) (h0 : x ≠ 0) :
    ∃ i, x.testBit i = true := by
  by_contra hall
  push_neg at hall
  exact h0 (Nat.eq_of_testBit_eq (fun i => by
    simp [Nat.zero_testBit]
    exact Bool.eq_false_iff.mpr (hall i)))

lemma exists_testBit_lt_16 (x : Nat) (h0 : x ≠ 0) (hlt : x < 2 ^ 16) :
    ∃ i, i < 16 ∧ x.testBit i = true := by
  obtain ⟨i, hi⟩ := exists_testBit_of_ne_zero x h0
  refine ⟨i, ?_, hi⟩
  by_contra h
  have : x < 2 ^ i := lt_of_lt_of_le hlt (Nat.pow_le_pow_right (by omega) (by omega))
  rw [Nat.testBit_lt_two_pow this] at hi
  exact Bool.false_ne_true hi

lemma tz16_spec (x : Nat) (h0 : x ≠ 0) (hlt : x < 2 ^ 16) :
    tz16 x < 16 ∧ x.testBit (tz16 x) = true ∧
      ∀ j, j < tz16 x → x.testBit j = false := by
  obtain ⟨i, hi16, hi⟩ := exists_testBit_lt_16 x h0 hlt
  have hex : ∃ c, x.testBit c = true := ⟨i, hi⟩
  classical
  let c := Nat.find hex
  have hcbit : x.testBit c = true := Nat.find_spec hex
  have hclow : ∀ j, j < c → x.testBit j = false := fun j hj => by
    have := Nat.find_min hex hj
    exact Bool.eq_false_iff.mpr this
  have hc16 : c < 16 := by
    have : c ≤ i := Nat.find_min' hex hi
    omega
  have := tz16_eq_of x c hc16 hcbit hclow
  rw [this]
  exact ⟨hc16, hcbit, hclow⟩

lemma hbAux_spec (x c : Nat) : ∀ p, c ≤ p → x.testBit c = true →
    c ≤ hbAux x p ∧ x.testBit (hbAux x p) = true ∧
      ∀ j, hbAux x p < j → j ≤ p → x.testBit j = false := by
  intro p
  induction p with
  | zero =>
    intro hc hbit
    have : c = 0 := by omega
    subst this
    exact ⟨le_rfl, hbit, fun j h1 h2 => by omega⟩
  | succ p ih =>
    intro hc hbit
    by_cases hp : x.testBit (p + 1)
    · rw [hbAux, if_pos hp]
      exact ⟨hc, hp, fun j h1 h2 => by omega⟩
    · have hp' : x.testBit (p + 1) = false := Bool.eq_false_iff.mpr hp
      have hcp : c ≤ p := by
        rcases Nat.lt_or_ge c (p + 1) with h | h
        · omega
        · have : c = p + 1 := by omega
          rw [this] at hbit; exact absurd hbit (by simp [hp'])
      obtain ⟨h1, h2, h3⟩ := ih hcp hbit
      rw [hbAux, if_neg hp]
      refine ⟨h1, h2, fun j hj1 hj2 => ?_⟩
      rcases Nat.lt_or_ge j (p + 1) with h | h
      · exact h3 j hj1 (by omega)
      · have : j = p + 1 := by omega
        rw [this]; exact hp'

lemma hbAux_le (x : Nat) : ∀ p, hbAux x p ≤ p := by
  intro p
  induction p with
  | zero => simp [hbAux]
  | succ p ih =>
    by_cases hp : x.testBit (p + 1) <;> simp [hbAux, hp] <;> omega

lemma hbAux_eq_of (x c p : Nat) (hcp : c ≤ p) (hbit : x.testBit c = true)
    (hhigh : ∀ j, c < j → x.testBit j = false) : hbAux x p = c := by
  obtain ⟨h1, h2, _⟩ := hbAux_spec x c p hcp hbit
  rcases Nat.lt_or_ge c (hbAux x p) with h | h
  · have := hhigh _ h; simp [this] at h2
  · omega

lemma lz16_two_pow (c : Nat) (hc : c < 16) : lz16 (2 ^ c) = 15 - c := by
  have h0 : (2 : Nat) ^ c ≠ 0 := by positivity
  have : hbAux (2 ^ c) 15 = c :=
    hbAux_eq_of _ c 15 (by omega) Nat.testBit_two_pow_self
      (fun j hj => Nat.testBit_two_pow_of_ne (by omega))
  simp [lz16, h0, this]

lemma lz16_eq_of_ne_zero (x : Nat) (h0 : x ≠ 0) : lz16 x = 15 - hbAux x 15 := by
  simp [lz16, h0]

lemma and_two_pow_ne_zero (b p : Nat) : (2 ^ p &&& b ≠ 0) ↔ b.testBit p = true := by
  constructor
  · intro h
    by_contra hb
    apply h
    apply Nat.eq_of_testBit_eq
    intro j
    rw [Nat.testBit_and, Nat.zero_testBit]
    by_cases hj : j = p
    · subst hj; simp [Bool.eq_false_iff.mpr hb]
    · simp [Nat.testBit_two_pow_of_ne (Ne.symm hj)]
  · intro h hz
    have : (2 ^ p &&& b).testBit p = true := by
      rw [Nat.testBit_and, h, Nat.testBit_two_pow_self]; rfl
    rw [hz, Nat.zero_testBit] at this
    exact Bool.false_ne_true this

lemma whileScan_found (b : Nat) : ∀ fuel p m, p ≤ m → m < 16 → b.testBit m = true →
    (∀ j, p ≤ j → j < m → b.testBit j = false) → 17 - p ≤ fuel →
    whileScan b (2 ^ p) fuel = some (2 ^ m) := by
  intro fuel
  induction fuel with
  | zero => intro p m h1 h2 _ _ hf; omega
  | succ fuel ih =>
    intro p m h1 h2 hm hlow hf
    rcases Nat.eq_or_lt_of_le h1 with heq | hlt
    · subst heq
      have : 2 ^ p &&& b ≠ 0 := (and_two_pow_ne_zero b p).mpr hm
      simp [whileScan, this]
    · have hp : b.testBit p = false := hlow p le_rfl hlt
      have hand : ¬ 2 ^ p &&& b ≠ 0 := by
        simp only [ne_eq, not_not]
        by_contra h
        exact absurd ((and_two_pow_ne_zero b p).mp h) (by simp [hp])
      have hpz : (2 : Nat) ^ p ≠ 0 := by positivity
      have hshift : (2 ^ p <<< 1) % 65536 = 2 ^ (p + 1) := by
        rw [Nat.shiftLeft_eq]
        have : (2 : Nat) ^ p * 2 ^ 1 = 2 ^ (p + 1) := by ring
        rw [this]
        exact Nat.mod_eq_of_lt (by
          have : (65536 : Nat) = 2 ^ 16 := by norm_num
          rw [this]
          exact Nat.pow_lt_pow_right (by omega) (by omega))
      rw [whileScan, if_neg hand, if_neg hpz, hshift]
      exact ih (p + 1) m (by omega) h2 hm
        (fun j hj1 hj2 => hlow j (by omega) hj2) (by omega)

lemma whileScan_none (b : Nat) : ∀ fuel p, p ≤ 16 →
    (∀ j, p ≤ j → j < 16 → b.testBit j = false) →
    whileScan b (2 ^ p % 65536) fuel = none := by
  intro fuel
  induction fuel with
  | zero => intro p _ _; simp [whileScan]
  | succ fuel ih =>
    intro p hp hlow
    rcases Nat.eq_or_lt_of_le hp with heq | hlt
    · subst heq
      have : (2 : Nat) ^ 16 % 65536 = 0 := by norm_num
      simp [whileScan, this]
    · have hmod : (2 : Nat) ^ p % 65536 = 2 ^ p := Nat.mod_eq_of_lt (by
        have h65 : (65536 : Nat) = 2 ^ 16 := by norm_num
        rw [h65]
        exact Nat.pow_lt_pow_right (by omega) hlt)
      have hpbit : b.testBit p = false := hlow p le_rfl hlt
      have hand : ¬ 2 ^ p &&& b ≠ 0 := by
        simp only [ne_eq, not_not]
        by_contra h
        exact absurd ((and_two_pow_ne_zero b p).mp h) (by simp [hpbit])
      have hpz : (2 : Nat) ^ p ≠ 0 := by positivity
      have hshift : (2 ^ p <<< 1) % 65536 = 2 ^ (p + 1) % 65536 := by
        rw [Nat.shiftLeft_eq, pow_one, pow_succ]
      rw [hmod, whileScan, if_neg hand, if_neg hpz, hshift]
      exact ih (p + 1) (by omega) (fun j hj1 hj2 => hlow j (by omega) hj2)

lemma bitmapFrom_lt (nd : InternalNode) : ∀ fuel i, bitmapFrom nd i fuel < 2 ^ fuel := by
  intro fuel
  induction fuel with
  | zero => intro i; simp [bitmapFrom]
  | succ fuel ih =>
    intro i
    have := ih (i + 1)
    by_cases h : (nd.childAt i).isSome <;>
      simp [bitmapFrom, h, Nat.pow_succ] <;> omega

lemma bitmapFrom_testBit (nd : InternalNode) : ∀ fuel i j,
    (bitmapFrom nd i fuel).testBit j =
      (decide (j < fuel) && (nd.childAt (i + j)).isSome) := by
  intro fuel
  induction fuel with
  | zero => intro i j; simp [bitmapFrom, Nat.zero_testBit]
  | succ fuel ih =>
    intro i j
    match j with
    | 0 =>
      by_cases h : (nd.childAt i).isSome <;>
        simp [bitmapFrom, h, Nat.testBit_zero, Nat.add_mul_mod_self_left]
    | j + 1 =>
      have hdiv : (((if (nd.childAt i).isSome then 1 else 0) : Nat) +
          2 * bitmapFrom nd (i + 1) fuel) / 2 = bitmapFrom nd (i + 1) fuel := by
        by_cases h : (nd.childAt i).isSome <;> simp [h] <;> omega
      rw [bitmapFrom, Nat.testBit_succ, hdiv, ih (i + 1) j]
      have : i + 1 + j = i + (j + 1) := by omega
      rw [this]
      by_cases hj : j < fuel <;> simp [hj] <;> omega

lemma generate_bitmaps_testBit (nd : InternalNode) (j : Nat) :
    nd.generate_bitmaps.testBit j = (decide (j < 16) && (nd.childAt j).isSome) := by
  have := bitmapFrom_testBit nd 16 0 j
  simpa [InternalNode.generate_bitmaps] using this

lemma generate_bitmaps_lt (nd : InternalNode) : nd.generate_bitmaps < 2 ^ 16 :=
  bitmapFrom_lt nd 16 0

/-! ## Fingerprint order lemmas -/

lemma hashLt_irrefl : ∀ a : HashValue, hashLt a a = false
  | [] => rfl
  | x :: xs => by simp [hashLt, hashLt_irrefl xs]

lemma hashLt_asymm : ∀ a b : HashValue, hashLt a b = true → hashLt b a = false
  | [], [] => by simp [hashLt]
  | [], _ :: _ => by simp [hashLt]
  | _ :: _, [] => by simp [hashLt]
  | x :: xs, y :: ys => by
    rcases lt_trichotomy x y with hxy | hxy | hxy
    · intro _
      simp [hashLt, hxy, asymm hxy]
    · subst hxy
      simp only [hashLt, lt_irrefl, if_false]
      exact hashLt_asymm xs ys
    · simp [hashLt, hxy, asymm hxy]

lemma hashLt_trans : ∀ a b c : HashValue,
    hashLt a b = true → hashLt b c = true → hashLt a c = true
  | [], [], _ => by simp [hashLt]
  | [], _ :: _, [] => by simp [hashLt]
  | [], _ :: _, _ :: _ => by simp [hashLt]
  | _ :: _, [], _ => by simp [hashLt]
  | _ :: _, _ :: _, [] => by simp [hashLt]
  | x :: xs, y :: ys, z :: zs => by
    rcases lt_trichotomy x y with hxy | hxy | hxy <;>
      rcases lt_trichotomy y z with hyz | hyz | hyz
    · have hxz : x < z := lt_trans hxy hyz
      simp [hashLt, hxz]
    · subst hyz; simp [hashLt, hxy]
    · intro _ h
      simp [hashLt, hyz, asymm hyz] at h
    · subst hxy; simp [hashLt, hyz]
    · subst hxy; subst hyz
      simp only [hashLt, lt_irrefl, if_false]
      exact hashLt_trans xs ys zs
    · intro _ h
      simp [hashLt, hyz, asymm hyz] at h
    · intro h
      simp [hashLt, hxy, asymm hxy] at h
    · subst hyz
      intro h
      simp [hashLt, hxy, asymm hxy] at h
    · intro h
      simp [hashLt, hxy, asymm hxy] at h

lemma hashLt_append_lt (x y : Nibble) (xs ys : List Nibble) (hxy : x < y) :
    ∀ p : List Nibble, hashLt (p ++ x :: xs) (p ++ y :: ys) = true
  | [] => by simp [hashLt, hxy]
  | q :: p => by
    simp only [List.cons_append, hashLt, lt_irrefl, if_false]
    exact hashLt_append_lt x y xs ys hxy p

lemma hashLe_of_hashLt {a b : HashValue} (h : hashLt a b = true) :
    hashLe a b = true := by
  simp [hashLe, hashLt_asymm a b h]

lemma hashLe_refl (a : HashValue) : hashLe a a = true := by
  simp [hashLe, hashLt_irrefl]

/-! ## Frame operation specifications -/

lemma cursorIndex_two_pow {f : NodeVisitInfo} {c : Nat} (hc : c < 16)
    (hcur : f.next_child_to_visit = 2 ^ c) : cursorIndex f = c := by
  rw [cursorIndex, hcur, tz16_two_pow c hc]

lemma is_rightmost_spec (f : NodeVisitInfo) (c : Nat) (hc : c < 16)
    (hcur : f.next_child_to_visit = 2 ^ c)
    (hbit : f.children_bitmap.testBit c = true) :
    f.is_rightmost = .ok (decide (c = hbAux f.children_bitmap 15)) := by
  have h0 : f.children_bitmap ≠ 0 := by
    intro h; rw [h, Nat.zero_testBit] at hbit; exact Bool.false_ne_true hbit
  obtain ⟨hle, hhb, _⟩ := hbAux_spec f.children_bitmap c 15 (by omega) hbit
  have hhb15 : hbAux f.children_bitmap 15 ≤ 15 := hbAux_le _ 15
  rw [NodeVisitInfo.is_rightmost, hcur, lz16_two_pow c hc, lz16_eq_of_ne_zero _ h0]
  rw [if_pos (by omega)]
  by_cases heq : c = hbAux f.children_bitmap 15
  · simp [heq]
  · have : ¬ (15 - c = 15 - hbAux f.children_bitmap 15) := by omega
    simp only [Nat.beq_eq_true_eq] at *
    simp [this, heq]

lemma least_set_bit_from (b p : Nat) (hex : ∃ j, p ≤ j ∧ j < 16 ∧ b.testBit j = true) :
    ∃ m, p ≤ m ∧ m < 16 ∧ b.testBit m = true ∧
      ∀ j, p ≤ j → j < m → b.testBit j = false := by
  classical
  obtain ⟨h1, h2, h3⟩ := Nat.find_spec hex
  refine ⟨Nat.find hex, h1, h2, h3, fun j hj1 hj2 => ?_⟩
  cases hb : b.testBit j
  · rfl
  · exact absurd ⟨hj1, by omega, hb⟩ (Nat.find_min hex hj2)

lemma advance_spec (f : NodeVisitInfo) (c : Nat) (hc : c < 16)
    (hcur : f.next_child_to_visit = 2 ^ c)
    (hbit : f.children_bitmap.testBit c = true)
    (hnr : c < hbAux f.children_bitmap 15) :
    ∃ m, c < m ∧ m < 16 ∧ f.children_bitmap.testBit m = true ∧
      (∀ j, c < j → j < m → f.children_bitmap.testBit j = false) ∧
      f.advance = .ok { f with next_child_to_visit := 2 ^ m } := by
  obtain ⟨hle, hhb, _⟩ := hbAux_spec f.children_bitmap c 15 (by omega) hbit
  have hhb15 : hbAux f.children_bitmap 15 ≤ 15 := hbAux_le _ 15
  obtain ⟨m, hm1, hm2, hm3, hm4⟩ := least_set_bit_from f.children_bitmap (c + 1)
    ⟨hbAux f.children_bitmap 15, by omega, by omega, hhb⟩
  have hshift : ((2 : Nat) ^ c <<< 1) % 65536 = 2 ^ (c + 1) := by
    rw [Nat.shiftLeft_eq, pow_one, ← pow_succ]
    exact Nat.mod_eq_of_lt (by
      have : (65536 : Nat) = 2 ^ 16 := by norm_num
      rw [this]
      exact Nat.pow_lt_pow_right (by omega) (by omega))
  have hscan := whileScan_found f.children_bitmap 17 (c + 1) m hm1 hm2 hm3
    (fun j hj1 hj2 => hm4 j hj1 hj2) (by omega)
  refine ⟨m, by omega, hm2, hm3, (fun j hj1 hj2 => hm4 j (by omega) hj2), ?_⟩
  rw [NodeVisitInfo.advance, is_rightmost_spec f c hc hcur hbit]
  have hne : ¬ (c = hbAux f.children_bitmap 15) := by omega
  simp only [decide_eq_false hne]
  rw [hcur, hshift, hscan]

lemma NodeVisitInfo.new_spec (k : NodeKey) (nd : InternalNode)
    (h0 : nd.generate_bitmaps ≠ 0) :
    ∃ m, m < 16 ∧ nd.generate_bitmaps.testBit m = true ∧
      (∀ j, j < m → nd.generate_bitmaps.testBit j = false) ∧
      NodeVisitInfo.new k nd =
        .ok ⟨k, nd, nd.generate_bitmaps, 2 ^ m⟩ ∧ m = tz16 nd.generate_bitmaps := by
  obtain ⟨h1, h2, h3⟩ := tz16_spec nd.generate_bitmaps h0 (generate_bitmaps_lt nd)
  refine ⟨tz16 nd.generate_bitmaps, h1, h2, h3, ?_, rfl⟩
  rw [NodeVisitInfo.new]
  simp only [if_pos (by omega : tz16 nd.generate_bitmaps ≤ 15)]
  rw [Nat.shiftLeft_eq, one_mul]

lemma new_next_child_to_visit_spec (k : NodeKey) (nd : InternalNode) (n : Nibble)
    (hex : ∃ j, n.val ≤ j ∧ j < 16 ∧ nd.generate_bitmaps.testBit j = true) :
    ∃ m, n.val ≤ m ∧ m < 16 ∧ nd.generate_bitmaps.testBit m = true ∧
      (∀ j, n.val ≤ j → j < m → nd.generate_bitmaps.testBit j = false) ∧
      NodeVisitInfo.new_next_child_to_visit k nd n =
        .ok ⟨k, nd, nd.generate_bitmaps, 2 ^ m⟩ := by
  obtain ⟨m, hm1, hm2, hm3, hm4⟩ := least_set_bit_from nd.generate_bitmaps n.val hex
  have hscan := whileScan_found nd.generate_bitmaps 17 n.val m hm1 hm2 hm3 hm4 (by omega)
  refine ⟨m, hm1, hm2, hm3, hm4, ?_⟩
  rw [NodeVisitInfo.new_next_child_to_visit]
  simp only [Nat.shiftLeft_eq, one_mul] at hscan ⊢
  rw [hscan]

/-! ## Tree semantics lemmas -/

lemma childRange_split {K V : Type} (nd : InternalNode)
    (g : NodeKey → List (LeafNode K V)) :
    ∀ a b i, childRange nd g i (a + b) =
      childRange nd g i a ++ childRange nd g (i + a) b := by
  intro a
  induction a with
  | zero => intro b i; simp [childRange]
  | succ a ih =>
    intro b i
    have hsucc : a + 1 + b = (a + b) + 1 := by omega
    rw [hsucc, childRange, childRange, ih b (i + 1), List.append_assoc]
    have : i + 1 + a = i + (a + 1) := by omega
    rw [this]

lemma childRange_congr {K V : Type} (nd : InternalNode)
    (g₁ g₂ : NodeKey → List (LeafNode K V)) :
    ∀ cnt i, (∀ j c, i ≤ j → j < i + cnt → nd.childAt j = some c →
      g₁ c.hash = g₂ c.hash) →
    childRange nd g₁ i cnt = childRange nd g₂ i cnt := by
  intro cnt
  induction cnt with
  | zero => intro i _; rfl
  | succ cnt ih =>
    intro i h
    rw [childRange, childRange, ih (i + 1) (fun j c h1 h2 hc => h j c (by omega) (by omega) hc)]
    congr 1
    cases hc : nd.childAt i with
    | none => rfl
    | some c => exact h i c le_rfl (by omega) hc

lemma childRange_none {K V : Type} (nd : InternalNode)
    (g : NodeKey → List (LeafNode K V)) :
    ∀ cnt i, (∀ j, i ≤ j → j < i + cnt → nd.childAt j = none) →
    childRange nd g i cnt = [] := by
  intro cnt
  induction cnt with
  | zero => intro i _; rfl
  | succ cnt ih =>
    intro i h
    rw [childRange, h i le_rfl (by omega),
      ih (i + 1) (fun j h1 h2 => h j (by omega) (by omega))]
    rfl

lemma childRange_mem {K V : Type} {nd : InternalNode}
    {g : NodeKey → List (LeafNode K V)} {l : LeafNode K V} :
    ∀ cnt i, l ∈ childRange nd g i cnt →
      ∃ j c, i ≤ j ∧ j < i + cnt ∧ nd.childAt j = some c ∧ l ∈ g c.hash := by
  intro cnt
  induction cnt with
  | zero => intro i h; simp [childRange] at h
  | succ cnt ih =>
    intro i h
    rw [childRange, List.mem_append] at h
    rcases h with h | h
    · cases hc : nd.childAt i with
      | none => rw [hc] at h; simp at h
      | some c =>
        rw [hc] at h
        exact ⟨i, c, le_rfl, by omega, hc, h⟩
    · obtain ⟨j, c, h1, h2, h3, h4⟩ := ih (i + 1) h
      exact ⟨j, c, by omega, by omega, h3, h4⟩

lemma mem_childRange {K V : Type} {nd : InternalNode}
    {g : NodeKey → List (LeafNode K V)} {l : LeafNode K V} :
    ∀ cnt i j c, i ≤ j → j < i + cnt → nd.childAt j = some c → l ∈ g c.hash →
      l ∈ childRange nd g i cnt := by
  intro cnt
  induction cnt with
  | zero => intro i j c h1 h2; omega
  | succ cnt ih =>
    intro i j c h1 h2 hc hl
    rw [childRange, List.mem_append]
    rcases Nat.eq_or_lt_of_le h1 with heq | hlt
    · subst heq
      left; rw [hc]; exact hl
    · right; exact ih (i + 1) j c (by omega) (by omega) hc hl

lemma wfChildrenAux_spec (g : NodeKey → List Nibble → Bool) (nd : InternalNode)
    (pre : List Nibble) :
    ∀ cnt i, wfChildrenAux g nd pre i cnt = true →
      ∀ (j : Nibble) c, i ≤ j.val → j.val < i + cnt → nd.child j = some c →
        g c.hash (pre ++ [j]) = true := by
  intro cnt
  induction cnt with
  | zero => intro i _ j c h1 h2 _; omega
  | succ cnt ih =>
    intro i h j c h1 h2 hc
    rw [wfChildrenAux, Bool.and_eq_true] at h
    obtain ⟨hhead, htail⟩ := h
    rcases Nat.eq_or_lt_of_le h1 with heq | hlt
    · have hi16 : i < 16 := by omega
      rw [dif_pos hi16] at hhead
      have hj : j = ⟨i, hi16⟩ := by
        apply Fin.ext; simp [← heq]
      subst hj
      rw [InternalNode.child] at hc
      rw [hc] at hhead
      exact hhead
    · exact ih (i + 1) htail j c hlt (by omega) hc

lemma depthChildrenAux_spec (g : NodeKey → Bool) (nd : InternalNode) :
    ∀ cnt i, depthChildrenAux g nd i cnt = true →
      ∀ j c, i ≤ j → j < i + cnt → nd.childAt j = some c → g c.hash = true := by
  intro cnt
  induction cnt with
  | zero => intro i _ j c h1 h2; omega
  | succ cnt ih =>
    intro i h j c h1 h2 hc
    rw [depthChildrenAux, Bool.and_eq_true] at h
    obtain ⟨hhead, htail⟩ := h
    rcases Nat.eq_or_lt_of_le h1 with heq | hlt
    · subst heq
      rw [hc] at hhead
      exact hhead
    · exact ih (i + 1) htail j c hlt (by omega) hc

lemma wfNode_zero_internal {K V : Type} {reader : TreeReader K V} {hashLen : Nat}
    {k : NodeKey} {pre : List Nibble} {nd : InternalNode}
    (hr : reader k = .ok (.Internal nd)) :
    wfNode reader hashLen 0 k pre = false := by
  rw [wfNode, hr]

lemma wfNode_internal {K V : Type} {reader : TreeReader K V} {hashLen fuel : Nat}
    {k : NodeKey} {pre : List Nibble} {nd : InternalNode}
    (hr : reader k = .ok (.Internal nd))
    (hwf : wfNode reader hashLen (fuel + 1) k pre = true) :
    nd.generate_bitmaps ≠ 0 ∧
      ∀ (i : Nibble) c, nd.child i = some c →
        wfNode reader hashLen fuel c.hash (pre ++ [i]) = true := by
  rw [wfNode, hr, Bool.and_eq_true] at hwf
  obtain ⟨h1, h2⟩ := hwf
  refine ⟨by simpa using h1, fun i c hc => ?_⟩
  exact wfChildrenAux_spec _ nd pre 16 0 h2 i c (Nat.zero_le _) (by omega) hc

lemma wfNode_leaf {K V : Type} {reader : TreeReader K V} {hashLen : Nat}
    {k : NodeKey} {pre : List Nibble} {l : LeafNode K V} :
    ∀ {fuel}, reader k = .ok (.Leaf l) →
      wfNode reader hashLen fuel k pre = true →
      l.key.hash.length = hashLen ∧ l.key.hash.take pre.length = pre := by
  intro fuel hr hwf
  match fuel with
  | 0 =>
    rw [wfNode, hr, Bool.and_eq_true] at hwf
    exact ⟨by simpa using hwf.1, by simpa using hwf.2⟩
  | fuel + 1 =>
    rw [wfNode, hr, Bool.and_eq_true] at hwf
    exact ⟨by simpa using hwf.1, by simpa using hwf.2⟩

lemma wfNode_cases {K V : Type} {reader : TreeReader K V} {hashLen fuel : Nat}
    {k : NodeKey} {pre : List Nibble}
    (hwf : wfNode reader hashLen fuel k pre = true) :
    (∃ l, reader k = .ok (.Leaf l)) ∨
      (∃ nd, reader k = .ok (.Internal nd) ∧ fuel ≠ 0) := by
  match fuel with
  | 0 =>
    rw [wfNode] at hwf
    cases hr : reader k with
    | error e => rw [hr] at hwf; simp at hwf
    | ok nd =>
      cases nd with
      | Leaf l => exact Or.inl ⟨l, rfl⟩
      | Internal nd => rw [hr] at hwf; simp at hwf
      | Null => rw [hr] at hwf; simp at hwf
  | fuel + 1 =>
    rw [wfNode] at hwf
    cases hr : reader k with
    | error e => rw [hr] at hwf; simp at hwf
    | ok nd =>
      cases nd with
      | Leaf l => exact Or.inl ⟨l, rfl⟩
      | Internal nd => exact Or.inr ⟨nd, rfl, by omega⟩
      | Null => rw [hr] at hwf; simp at hwf

lemma childAt_some_lt {nd : InternalNode} {j : Nat} {c : Child}
    (hc : nd.childAt j = some c) : j < 16 := by
  by_contra h
  rw [InternalNode.childAt, dif_neg h] at hc
  exact Option.noConfusion hc

lemma child_of_childAt {nd : InternalNode} {j : Nat} {c : Child}
    (hc : nd.childAt j = some c) (hj : j < 16) : nd.child ⟨j, hj⟩ = some c := by
  rw [InternalNode.child]
  rw [InternalNode.childAt, dif_pos hj] at hc
  exact hc

lemma childAt_of_child {nd : InternalNode} {j : Nibble} {o : Option Child}
    (hc : nd.child j = o) : nd.childAt j.val = o := by
  rw [InternalNode.childAt, dif_pos j.isLt]
  rw [InternalNode.child] at hc
  simpa using hc

lemma leavesUnder_stable {K V : Type} {reader : TreeReader K V} {hashLen : Nat} :
    ∀ fuel k pre n, wfNode reader hashLen fuel k pre = true → fuel < n →
      leavesUnder reader n k = leavesUnder reader (fuel + 1) k := by
  intro fuel
  induction fuel with
  | zero =>
    intro k pre n hwf hn
    rcases wfNode_cases hwf with ⟨l, hr⟩ | ⟨_, _, hne⟩
    · match n, hn with
      | n + 1, _ => rw [leavesUnder, leavesUnder, hr]
    · omega
  | succ fuel ih =>
    intro k pre n hwf hn
    rcases wfNode_cases hwf with ⟨l, hr⟩ | ⟨nd, hr, _⟩
    · match n, hn with
      | n + 1, _ => rw [leavesUnder, leavesUnder, hr]
    · obtain ⟨_, hch⟩ := wfNode_internal hr hwf
      match n, hn with
      | n + 1, hn =>
        rw [leavesUnder, leavesUnder, hr]
        apply childRange_congr
        intro j c _ _ hc
        have hj16 := childAt_some_lt hc
        have hwfc := hch ⟨j, hj16⟩ c (child_of_childAt hc hj16)
        rw [ih c.hash (pre ++ [⟨j, hj16⟩]) n hwfc (by omega)]

lemma leavesUnder_mem {K V : Type} {reader : TreeReader K V} {hashLen : Nat} :
    ∀ fuel k pre (l : LeafNode K V), wfNode reader hashLen fuel k pre = true →
      l ∈ leavesUnder reader (fuel + 1) k →
      l.key.hash.length = hashLen ∧ l.key.hash.take pre.length = pre := by
  intro fuel
  induction fuel with
  | zero =>
    intro k pre l hwf hl
    rcases wfNode_cases hwf with ⟨lf, hr⟩ | ⟨_, _, hne⟩
    · rw [leavesUnder, hr] at hl
      simp only [List.mem_singleton] at hl
      subst hl
      exact wfNode_leaf hr hwf
    · omega
  | succ fuel ih =>
    intro k pre l hwf hl
    rcases wfNode_cases hwf with ⟨lf, hr⟩ | ⟨nd, hr, _⟩
    · rw [leavesUnder, hr] at hl
      simp only [List.mem_singleton] at hl
      subst hl
      exact wfNode_leaf hr hwf
    · obtain ⟨_, hch⟩ := wfNode_internal hr hwf
      rw [leavesUnder, hr] at hl
      obtain ⟨j, c, _, _, hc, hmem⟩ := childRange_mem 16 0 hl
      have hj16 := childAt_some_lt hc
      have hwfc := hch ⟨j, hj16⟩ c (child_of_childAt hc hj16)
      obtain ⟨hlen, htake⟩ := ih c.hash _ l hwfc hmem
      refine ⟨hlen, ?_⟩
      have hlen2 : (pre ++ [(⟨j, hj16⟩ : Nibble)]).length = pre.length + 1 := by simp
      rw [hlen2] at htake
      have h1 : l.key.hash.take pre.length =
          (l.key.hash.take (pre.length + 1)).take pre.length := by
        rw [List.take_take]
        congr 1
        omega
      rw [h1, htake]
      exact List.take_left' rfl

lemma leavesUnder_take_child {K V : Type} {reader : TreeReader K V} {hashLen fuel : Nat}
    {nd : InternalNode} {pre : List Nibble} {j : Nibble} {c : Child} {l : LeafNode K V}
    (hch : ∀ (i : Nibble) c, nd.child i = some c →
      wfNode reader hashLen fuel c.hash (pre ++ [i]) = true)
    (hc : nd.child j = some c) (hl : l ∈ leavesUnder reader (fuel + 1) c.hash) :
    l.key.hash.take (pre.length + 1) = pre ++ [j] := by
  have hwfc := hch j c hc
  obtain ⟨_, htake⟩ := leavesUnder_mem fuel c.hash (pre ++ [j]) l hwfc hl
  simpa using htake

lemma eq_take_append_cons {a : HashValue} {pre : List Nibble} {i : Nibble}
    (ha : a.take (pre.length + 1) = pre ++ [i]) :
    a = pre ++ i :: a.drop (pre.length + 1) := by
  conv_lhs => rw [← List.take_append_drop (pre.length + 1) a]
  rw [ha, List.append_assoc, List.singleton_append]

lemma hashLt_of_take_succ {a b : HashValue} {pre : List Nibble} {i j : Nibble}
    (ha : a.take (pre.length + 1) = pre ++ [i])
    (hb : b.take (pre.length + 1) = pre ++ [j]) (hij : i < j) :
    hashLt a b = true := by
  rw [eq_take_append_cons ha, eq_take_append_cons hb]
  exact hashLt_append_lt i j _ _ hij pre

lemma leavesUnder_ne_nil {K V : Type} {reader : TreeReader K V} {hashLen : Nat} :
    ∀ fuel k pre, wfNode reader hashLen fuel k pre = true →
      leavesUnder reader (fuel + 1) k ≠ [] := by
  intro fuel
  induction fuel with
  | zero =>
    intro k pre hwf
    rcases wfNode_cases hwf with ⟨l, hr⟩ | ⟨_, _, hne⟩
    · rw [leavesUnder, hr]; simp
    · omega
  | succ fuel ih =>
    intro k pre hwf
    rcases wfNode_cases hwf with ⟨l, hr⟩ | ⟨nd, hr, _⟩
    · rw [leavesUnder, hr]; simp
    · obtain ⟨hbm, hch⟩ := wfNode_internal hr hwf
      rw [leavesUnder, hr]
      obtain ⟨j, hj16, hbit⟩ :=
        exists_testBit_lt_16 nd.generate_bitmaps hbm (generate_bitmaps_lt nd)
      rw [generate_bitmaps_testBit, Bool.and_eq_true] at hbit
      obtain ⟨c, hc⟩ := Option.isSome_iff_exists.mp hbit.2
      have hwfc := hch ⟨j, hj16⟩ c (child_of_childAt hc hj16)
      obtain ⟨l, hl⟩ := List.exists_mem_of_ne_nil _ (ih c.hash _ hwfc)
      exact List.ne_nil_of_mem (mem_childRange 16 0 j c (Nat.zero_le j) (by omega) hc hl)

lemma childRange_sorted {K V : Type} {reader : TreeReader K V} {hashLen fuel : Nat}
    {nd : InternalNode} {pre : List Nibble}
    (hch : ∀ (i : Nibble) c, nd.child i = some c →
      wfNode reader hashLen fuel c.hash (pre ++ [i]) = true)
    (hsub : ∀ (i : Nibble) c, nd.child i = some c →
      (leavesUnder reader (fuel + 1) c.hash).Pairwise
        (fun a b => hashLt a.key.hash b.key.hash = true)) :
    ∀ cnt i, (childRange nd (leavesUnder reader (fuel + 1)) i cnt).Pairwise
      (fun a b => hashLt a.key.hash b.key.hash = true) := by
  intro cnt
  induction cnt with
  | zero => intro i; exact List.Pairwise.nil
  | succ cnt ih =>
    intro i
    rw [childRange, List.pairwise_append]
    refine ⟨?_, ih (i + 1), ?_⟩
    · cases hc : nd.childAt i with
      | none => exact List.Pairwise.nil
      | some c =>
        have hj16 := childAt_some_lt hc
        exact hsub ⟨i, hj16⟩ c (child_of_childAt hc hj16)
    · intro x hx y hy
      cases hc : nd.childAt i with
      | none => rw [hc] at hx; simp at hx
      | some c =>
        rw [hc] at hx
        have hi16 := childAt_some_lt hc
        obtain ⟨j, c', hj1, _, hc', hy'⟩ := childRange_mem cnt (i + 1) hy
        have hj16 := childAt_some_lt hc'
        have hxt := leavesUnder_take_child hch (child_of_childAt hc hi16) hx
        have hyt := leavesUnder_take_child hch (child_of_childAt hc' hj16) hy'
        exact hashLt_of_take_succ hxt hyt (by simpa using (by omega : i < j))

lemma leavesUnder_sorted {K V : Type} {reader : TreeReader K V} {hashLen : Nat} :
    ∀ fuel k pre, wfNode reader hashLen fuel k pre = true →
      (leavesUnder reader (fuel + 1) k).Pairwise
        (fun a b => hashLt a.key.hash b.key.hash = true) := by
  intro fuel
  induction fuel with
  | zero =>
    intro k pre hwf
    rcases wfNode_cases hwf with ⟨l, hr⟩ | ⟨_, _, hne⟩
    · rw [leavesUnder, hr]; simp
    · omega
  | succ fuel ih =>
    intro k pre hwf
    rcases wfNode_cases hwf with ⟨l, hr⟩ | ⟨nd, hr, _⟩
    · rw [leavesUnder, hr]; simp
    · obtain ⟨_, hch⟩ := wfNode_internal hr hwf
      rw [leavesUnder, hr]
      exact childRange_sorted hch
        (fun i c hc => ih c.hash (pre ++ [i]) (hch i c hc)) 16 0

/-! ## Stack lemmas -/

lemma childAt_none_of_testBit_false {nd : InternalNode} {j : Nat}
    (h : nd.generate_bitmaps.testBit j = false) : nd.childAt j = none := by
  cases hc : nd.childAt j with
  | none => rfl
  | some c =>
    have hj := childAt_some_lt hc
    rw [generate_bitmaps_testBit] at h
    simp [hj, hc] at h

lemma testBit_of_childAt_some {nd : InternalNode} {j : Nat} {c : Child}
    (hc : nd.childAt j = some c) : nd.generate_bitmaps.testBit j = true := by
  have hj := childAt_some_lt hc
  rw [generate_bitmaps_testBit]
  simp [hj, hc]

lemma childAt_isSome_of_testBit {nd : InternalNode} {j : Nat}
    (h : nd.generate_bitmaps.testBit j = true) : ∃ c, nd.childAt j = some c := by
  rw [generate_bitmaps_testBit, Bool.and_eq_true] at h
  exact Option.isSome_iff_exists.mp h.2

lemma leavesFrom_nil {K V : Type} (reader : TreeReader K V) (fu : Nat)
    (nd : InternalNode) (lo : Nat)
    (hnone : ∀ j, lo ≤ j → j < 16 → nd.childAt j = none) :
    leavesFrom reader fu nd lo = [] := by
  rw [leavesFrom]
  apply childRange_none
  intro j h1 h2
  exact hnone j h1 (by omega)

lemma leavesFrom_congr {K V : Type} (reader : TreeReader K V) (fu : Nat)
    (nd : InternalNode) {lo lo' : Nat} (h1 : lo ≤ lo') (h2 : lo' ≤ 16)
    (hnone : ∀ j, lo ≤ j → j < lo' → nd.childAt j = none) :
    leavesFrom reader fu nd lo = leavesFrom reader fu nd lo' := by
  rw [leavesFrom, leavesFrom]
  have hsplit : 16 - lo = (lo' - lo) + (16 - lo') := by omega
  rw [hsplit, childRange_split]
  rw [childRange_none nd _ (lo' - lo) lo (fun j hj1 hj2 => hnone j hj1 (by omega))]
  rw [List.nil_append]
  congr 1
  omega

lemma cleanup_stack_spec {K V : Type} {reader : TreeReader K V} {root : NodeKey} :
    ∀ {st}, StackWF reader root st →
      ∃ st', JellyfishMerkleIterator.cleanup_stack st = .ok st' ∧
        StackWF reader root st' ∧
        ∀ fu, SR reader fu st' = SRstrict reader fu st := by
  intro st hwf
  induction hwf with
  | nil => exact ⟨[], rfl, StackWF.nil, fun fu => rfl⟩
  | @cons f rest hrest hpar hr hbm hinv ih =>
    obtain ⟨c, hc16, hcur, hbit⟩ := hinv
    have hlt : f.children_bitmap < 2 ^ 16 := by rw [hbm]; exact generate_bitmaps_lt _
    obtain ⟨hchb, hhbbit, hhigh⟩ := hbAux_spec f.children_bitmap c 15 (by omega) hbit
    have hcidx : cursorIndex f = c := cursorIndex_two_pow hc16 hcur
    have hrm := is_rightmost_spec f c hc16 hcur hbit
    by_cases hceq : c = hbAux f.children_bitmap 15
    · obtain ⟨st', hclean, hwf', hsr⟩ := ih
      refine ⟨st', ?_, hwf', fun fu => ?_⟩
      · rw [JellyfishMerkleIterator.cleanup_stack, hrm, decide_eq_true hceq]
        exact hclean
      · rw [hsr fu]
        have hafter : frameAfter reader fu f = [] := by
          rw [frameAfter, hcidx]
          apply leavesFrom_nil
          intro j hj1 hj2
          have hjbit : f.children_bitmap.testBit j = false := hhigh j (by omega) (by omega)
          rw [hbm] at hjbit
          exact childAt_none_of_testBit_false hjbit
        rw [SRstrict, hafter, List.nil_append]
    · have hclt : c < hbAux f.children_bitmap 15 := lt_of_le_of_ne hchb hceq
      obtain ⟨m, hm1, hm2, hm3, hm4, hadv⟩ := advance_spec f c hc16 hcur hbit hclt
      refine ⟨{ f with next_child_to_visit := 2 ^ m } :: rest, ?_, ?_, fun fu => ?_⟩
      · rw [JellyfishMerkleIterator.cleanup_stack, hrm, decide_eq_false hceq, hadv]
      · refine StackWF.cons hrest hpar hr hbm ⟨m, hm2, rfl, ?_⟩
        exact hm3
      · have hcidx' : cursorIndex { f with next_child_to_visit := 2 ^ m } = m :=
          cursorIndex_two_pow hm2 rfl
        have hfrom : frameFrom reader fu { f with next_child_to_visit := 2 ^ m } =
            frameAfter reader fu f := by
          rw [frameFrom, frameAfter, hcidx', hcidx]
          symm
          apply leavesFrom_congr reader fu f.node (by omega) (by omega)
          intro j hj1 hj2
          have hjbit : f.children_bitmap.testBit j = false := hm4 j (by omega) hj2
          rw [hbm] at hjbit
          exact childAt_none_of_testBit_false hjbit
        rw [SR, SRstrict, hfrom]

lemma stackWF_cons_parent {K V : Type} {reader : TreeReader K V} {root : NodeKey}
    {f : NodeVisitInfo} {rest : List NodeVisitInfo}
    (h : StackWF reader root (f :: rest)) :
    ∃ c, f.node.childAt (cursorIndex f) = some c ∧
      stackParentId root (f :: rest) = some c.hash := by
  cases h with
  | cons hrest hpar hr hbm hinv =>
    obtain ⟨cc, hc16, hcur, hbit⟩ := hinv
    have hcidx : cursorIndex f = cc := cursorIndex_two_pow hc16 hcur
    rw [hbm] at hbit
    obtain ⟨c, hc⟩ := childAt_isSome_of_testBit hbit
    rw [hcidx]
    refine ⟨c, hc, ?_⟩
    rw [stackParentId, hcidx, hc]
    rfl

lemma stackWF_root_internal {K V : Type} {reader : TreeReader K V} {root : NodeKey} :
    ∀ {st}, StackWF reader root st → st ≠ [] →
      ∃ nd, reader root = .ok (.Internal nd) := by
  intro st hwf
  induction hwf with
  | nil => intro h; exact absurd rfl h
  | @cons f rest hrest hpar hr _ _ ih =>
    intro _
    cases rest with
    | nil =>
      rw [stackParentId] at hpar
      have : root = f.node_key := by
        injection hpar
      rw [this]
      exact ⟨f.node, hr⟩
    | cons g rest' => exact ih (by simp)

lemma stackWF_parent_wf {K V : Type} {reader : TreeReader K V} {root : NodeKey}
    {hashLen : Nat} (hroot : wfNode reader hashLen hashLen root [] = true) :
    ∀ {st}, StackWF reader root st →
      ∀ k, stackParentId root st = some k →
        st.length ≤ hashLen ∧ (pathTo st).length = st.length ∧
        wfNode reader hashLen (hashLen - st.length) k (pathTo st) = true := by
  intro st hwf
  induction hwf with
  | nil =>
    intro k hk
    rw [stackParentId] at hk
    have : root = k := by injection hk
    subst this
    simpa [pathTo] using hroot
  | @cons f rest hrest hpar hr hbm hinv ih =>
    intro k hk
    obtain ⟨hlen, hplen, hwfp⟩ := ih f.node_key hpar
    obtain ⟨cc, hc16, hcur, hbit⟩ := hinv
    have hcidx : cursorIndex f = cc := cursorIndex_two_pow hc16 hcur
    have hne : hashLen - rest.length ≠ 0 := by
      intro h0
      rw [h0, wfNode_zero_internal hr] at hwfp
      exact Bool.false_ne_true hwfp
    obtain ⟨m, hm⟩ : ∃ m, hashLen - rest.length = m + 1 :=
      ⟨hashLen - rest.length - 1, by omega⟩
    rw [hm] at hwfp
    obtain ⟨_, hch⟩ := wfNode_internal hr hwfp
    rw [stackParentId, hcidx] at hk
    cases hco : f.node.childAt cc with
    | none => rw [hco] at hk; simp at hk
    | some c =>
      rw [hco] at hk
      have hck : c.hash = k := by simpa using hk
      have hwfc := hch ⟨cc, hc16⟩ c (child_of_childAt hco hc16)
      rw [hck] at hwfc
      have hpath : pathTo (f :: rest) = pathTo rest ++ [(⟨cc, hc16⟩ : Nibble)] := by
        rw [pathTo]
        congr 2
        apply Fin.ext
        simp [hcidx]
        omega
      refine ⟨by simp; omega, by rw [hpath]; simp [hplen], ?_⟩
      rw [hpath]
      have : hashLen - (f :: rest).length = m := by simp; omega
      rw [this]
      exact hwfc

lemma leavesFrom_cons {K V : Type} (reader : TreeReader K V) (fu : Nat)
    (nd : InternalNode) (lo : Nat) (hlo : lo < 16) :
    leavesFrom reader fu nd lo =
      (match nd.childAt lo with
       | some c => leavesUnder reader fu c.hash
       | none => []) ++ leavesFrom reader fu nd (lo + 1) := by
  rw [leavesFrom, leavesFrom]
  have h : 16 - lo = (16 - (lo + 1)) + 1 := by omega
  rw [h, childRange]

/-- One full descent of the advance/yield loop: from a well-formed,
non-empty stack it yields exactly the head of the remaining-leaves list
and leaves a well-formed stack holding the tail. -/
lemma descendLoop_spec {K V : Type} {reader : TreeReader K V} {root : NodeKey}
    {hashLen : Nat} (hroot : wfNode reader hashLen hashLen root [] = true) :
    ∀ fuel (st : List NodeVisitInfo), StackWF reader root st → st ≠ [] →
      hashLen + 1 - st.length ≤ fuel →
      ∃ (l : LeafNode K V) (st' : List NodeVisitInfo),
        JellyfishMerkleIterator.descendLoop reader st fuel =
          .ok (some (.ok (l.key, l.value)), st') ∧
        StackWF reader root st' ∧
        SR reader hashLen st = l :: SR reader hashLen st' := by
  intro fuel
  induction fuel with
  | zero =>
    intro st hwf hne hfuel
    exfalso
    cases hwf with
    | nil => exact hne rfl
    | @cons f rest hrest hpar hr hbm hinv =>
      obtain ⟨c, hco, hpid⟩ := stackWF_cons_parent (StackWF.cons hrest hpar hr hbm hinv)
      obtain ⟨hlen, _, _⟩ :=
        stackWF_parent_wf hroot (StackWF.cons hrest hpar hr hbm hinv) c.hash hpid
      simp at hlen hfuel
      omega
  | succ n ih =>
    intro st hwf hne hfuel
    match st, hne with
    | f :: rest, _ =>
      have hwf' := hwf
      cases hwf with
      | @cons _ _ hrest hpar hr hbm hinv =>
        obtain ⟨c, hco, hpid⟩ := stackWF_cons_parent hwf'
        obtain ⟨hlen, hplen, hwfp⟩ := stackWF_parent_wf hroot hwf' c.hash hpid
        obtain ⟨cc, hc16, hcur, hbit⟩ := hinv
        have hcidx : cursorIndex f = cc := cursorIndex_two_pow hc16 hcur
        have htz16 : tz16 f.next_child_to_visit < 16 := by
          rw [← cursorIndex] at *
          omega
        have hchild : f.node.child ⟨tz16 f.next_child_to_visit, htz16⟩ = some c :=
          child_of_childAt hco htz16
        have hlen1 : (f :: rest).length = rest.length + 1 := rfl
        have hLle : rest.length + 1 ≤ hashLen := by rw [← hlen1]; exact hlen
        rcases wfNode_cases hwfp with ⟨l, hrc⟩ | ⟨nd, hrc, hfne⟩
        · -- cursor child is a leaf: yield it
          obtain ⟨st', hclean, hwfc, hsr⟩ := cleanup_stack_spec hwf'
          refine ⟨l, st', ?_, hwfc, ?_⟩
          · rw [JellyfishMerkleIterator.descendLoop, dif_pos htz16, hchild]
            dsimp only
            rw [hrc]
            dsimp only
            rw [hclean]
          · rw [hsr hashLen]
            obtain ⟨h', hh'⟩ : ∃ h', hashLen = h' + 1 :=
              ⟨hashLen - 1, by omega⟩
            have hlu : leavesUnder reader hashLen c.hash = [l] := by
              rw [hh', leavesUnder, hrc]
            have hco' : f.node.childAt cc = some c := by rw [← hcidx]; exact hco
            rw [SR, frameFrom, hcidx,
              leavesFrom_cons reader hashLen f.node cc (by omega), hco']
            dsimp only
            rw [hlu, SRstrict, frameAfter, hcidx]
            rfl
        · -- cursor child is an internal node: push and recurse
          obtain ⟨m, hmeq⟩ : ∃ m, hashLen - (f :: rest).length = m + 1 := by
            refine ⟨hashLen - (f :: rest).length - 1, ?_⟩
            have h0 : hashLen - (f :: rest).length ≠ 0 := by
              intro h0
              rw [h0, wfNode_zero_internal hrc] at hwfp
              exact Bool.false_ne_true hwfp
            omega
          rw [hmeq] at hwfp
          obtain ⟨hbm0, hch⟩ := wfNode_internal hrc hwfp
          obtain ⟨t, ht16, htbit, htlow, hnew, _⟩ := NodeVisitInfo.new_spec c.hash nd hbm0
          set fr : NodeVisitInfo := ⟨c.hash, nd, nd.generate_bitmaps, 2 ^ t⟩ with hfr
          have hwfpush : StackWF reader root (fr :: f :: rest) := by
            refine StackWF.cons hwf' hpid hrc rfl ⟨t, ht16, rfl, htbit⟩
          obtain ⟨l, st', hloop, hwfc, hsr⟩ := ih (fr :: f :: rest) hwfpush (by simp)
            (by simp; simp at hfuel; omega)
          refine ⟨l, st', ?_, hwfc, ?_⟩
          · rw [JellyfishMerkleIterator.descendLoop, dif_pos htz16, hchild]
            dsimp only
            rw [hrc]
            dsimp only
            rw [hnew]
            exact hloop
          · -- SR (f :: rest) = SR (fr :: f :: rest)
            have hfr_from : frameFrom reader hashLen fr =
                leavesFrom reader hashLen nd 0 := by
              rw [frameFrom]
              have : cursorIndex fr = t := cursorIndex_two_pow ht16 rfl
              rw [this]
              symm
              apply leavesFrom_congr reader hashLen nd (Nat.zero_le t) (by omega)
              intro j _ hj2
              exact childAt_none_of_testBit_false (htlow j hj2)
            have hlu : leavesUnder reader hashLen c.hash =
                leavesFrom reader hashLen nd 0 := by
              obtain ⟨h', hh'⟩ : ∃ h', hashLen = h' + 1 := ⟨hashLen - 1, by omega⟩
              rw [hh', leavesUnder, hrc, leavesFrom]
              apply childRange_congr
              intro j cj _ _ hcj
              have hj16 := childAt_some_lt hcj
              have hwfcj := hch ⟨j, hj16⟩ cj (child_of_childAt hcj hj16)
              rw [leavesUnder_stable m cj.hash _ h' hwfcj (by simp at hmeq; omega)]
              rw [leavesUnder_stable m cj.hash _ (h' + 1) hwfcj (by simp at hmeq; omega)]
            have hco' : f.node.childAt cc = some c := by rw [← hcidx]; exact hco
            rw [← hsr, SR, SR, hfr_from]
            rw [frameFrom, hcidx,
              leavesFrom_cons reader hashLen f.node cc (by omega), hco']
            dsimp only
            rw [hlu, SRstrict, frameAfter, hcidx]
            simp [List.append_assoc]

/-- One pull, semantically: a well-formed iterator state yields the head
of its remaining-leaves list (nothing when that list is empty) and steps
to a well-formed state whose remaining list is the tail. -/
lemma next_spec {K V : Type} {reader : TreeReader K V} {hashLen : Nat}
    {s : JellyfishMerkleIterator K V}
    (hroot : wfNode reader hashLen hashLen s.state_root_hash [] = true)
    (hwf : StackWF reader s.state_root_hash s.parent_stack)
    {fuel : Nat} (hfuel : hashLen + 1 ≤ fuel) :
    ∃ s', JellyfishMerkleIterator.next reader fuel s =
        .ok ((SemL reader hashLen s).head?.map (fun l => .ok (l.key, l.value)), s') ∧
      StackWF reader s'.state_root_hash s'.parent_stack ∧
      s'.state_root_hash = s.state_root_hash ∧
      SemL reader hashLen s' = (SemL reader hashLen s).tail := by
  obtain ⟨rt, stack, dn⟩ := s
  simp only at hroot hwf
  cases dn with
  | true =>
    refine ⟨⟨rt, stack, true⟩, ?_, hwf, rfl, ?_⟩
    · simp [JellyfishMerkleIterator.next, SemL]
    · simp [SemL]
  | false =>
    cases stack with
    | nil =>
      rcases wfNode_cases hroot with ⟨l, hr⟩ | ⟨nd, hr, _⟩
      · have hsem : SemL reader hashLen ⟨rt, [], false⟩ = [l] := by
          simp [SemL]
          rw [hr]
        refine ⟨⟨rt, [], true⟩, ?_, StackWF.nil, rfl, ?_⟩
        · rw [hsem]
          simp only [JellyfishMerkleIterator.next]
          rw [hr]
          rfl
        · rw [hsem]
          simp [SemL]
      · have hsem : SemL reader hashLen ⟨rt, [], false⟩ = [] := by
          simp [SemL]
          rw [hr]
        refine ⟨⟨rt, [], false⟩, ?_, StackWF.nil, rfl, ?_⟩
        · rw [hsem]
          simp only [JellyfishMerkleIterator.next]
          rw [hr]
          rfl
        · rw [hsem]
          rfl
    | cons f rest =>
      obtain ⟨l, st', hloop, hwfc, hsr⟩ := descendLoop_spec hroot fuel (f :: rest)
        hwf (by simp) (by simp; omega)
      have hsem : SemL reader hashLen ⟨rt, f :: rest, false⟩ =
          SR reader hashLen (f :: rest) := by
        simp [SemL]
      refine ⟨⟨rt, st', false⟩, ?_, hwfc, rfl, ?_⟩
      · rw [hsem, hsr]
        simp only [JellyfishMerkleIterator.next]
        rw [hloop]
        rfl
      · rw [hsem, hsr]
        cases hst : st' with
        | nil =>
          simp [SemL]
          obtain ⟨nd, hr⟩ := stackWF_root_internal hwf (by simp)
          rw [hr]
          rfl
        | cons g rest' =>
          simp [SemL, ← hst]

/-! ## Seek lemmas -/

lemma take_succ_of_drop {α : Type} {l : List α} {d : Nat} {x : α} {rest : List α}
    (h : l.drop d = x :: rest) : l.take (d + 1) = l.take d ++ [x] := by
  rw [List.take_add, h]
  rfl

lemma drop_succ_of_drop {α : Type} {l : List α} {d : Nat} {x : α} {rest : List α}
    (h : l.drop d = x :: rest) : l.drop (d + 1) = rest := by
  have h1 : l.drop (d + 1) = (l.drop d).drop 1 := by rw [List.drop_drop]
  rw [h1, h]
  rfl

lemma length_take_of_le {α : Type} {l : List α} {d : Nat} (h : d ≤ l.length) :
    (l.take d).length = d := by
  rw [List.length_take]
  omega

lemma filter_drop_lt {K V : Type} {reader : TreeReader K V} {hashLen fuel : Nat}
    {nd : InternalNode} {startHash : HashValue} {d : Nat} {ci : Nibble}
    {rest0 : List Nibble} (hlen : startHash.length = hashLen) (hd : d ≤ hashLen)
    (hdrop : startHash.drop d = ci :: rest0)
    (hch : ∀ (i : Nibble) c, nd.child i = some c →
      wfNode reader hashLen fuel c.hash (startHash.take d ++ [i]) = true) :
    ∀ cnt i, i + cnt ≤ ci.val →
      (childRange nd (leavesUnder reader (fuel + 1)) i cnt).filter
        (fun x => hashLe startHash x.key.hash) = [] := by
  intro cnt i hle
  rw [List.filter_eq_nil_iff]
  intro x hx
  obtain ⟨j, c, hj1, hj2, hc, hmem⟩ := childRange_mem cnt i hx
  have hj16 := childAt_some_lt hc
  have hxt := leavesUnder_take_child hch (child_of_childAt hc hj16) hmem
  have hpl : (startHash.take d).length = d := length_take_of_le (by omega)
  have hst : startHash.take ((startHash.take d).length + 1) =
      startHash.take d ++ [ci] := by
    rw [hpl]
    exact take_succ_of_drop hdrop
  have hlt : hashLt x.key.hash startHash = true :=
    hashLt_of_take_succ hxt hst (show (⟨j, hj16⟩ : Nibble) < ci by
      simp [Fin.lt_def]; omega)
  simp [hashLe, hlt]

lemma filter_keep_gt {K V : Type} {reader : TreeReader K V} {hashLen fuel : Nat}
    {nd : InternalNode} {startHash : HashValue} {d : Nat} {ci : Nibble}
    {rest0 : List Nibble} (hlen : startHash.length = hashLen) (hd : d ≤ hashLen)
    (hdrop : startHash.drop d = ci :: rest0)
    (hch : ∀ (i : Nibble) c, nd.child i = some c →
      wfNode reader hashLen fuel c.hash (startHash.take d ++ [i]) = true) :
    ∀ cnt i, ci.val < i →
      (childRange nd (leavesUnder reader (fuel + 1)) i cnt).filter
        (fun x => hashLe startHash x.key.hash) =
        childRange nd (leavesUnder reader (fuel + 1)) i cnt := by
  intro cnt i hgt
  rw [List.filter_eq_self]
  intro x hx
  obtain ⟨j, c, hj1, hj2, hc, hmem⟩ := childRange_mem cnt i hx
  have hj16 := childAt_some_lt hc
  have hxt := leavesUnder_take_child hch (child_of_childAt hc hj16) hmem
  have hpl : (startHash.take d).length = d := length_take_of_le (by omega)
  have hst : startHash.take ((startHash.take d).length + 1) =
      startHash.take d ++ [ci] := by
    rw [hpl]
    exact take_succ_of_drop hdrop
  have hlt : hashLt startHash x.key.hash = true :=
    hashLt_of_take_succ hst hxt (show ci < (⟨j, hj16⟩ : Nibble) by
      simp [Fin.lt_def]; omega)
  simp [hashLe, hashLt_asymm _ _ hlt]

lemma seekLoop_at_leaf {K V : Type} {reader : TreeReader K V} {root : NodeKey}
    {hashLen : Nat} {startHash : HashValue} {cur : NodeKey}
    {stack : List NodeVisitInfo} {l : LeafNode K V}
    (hroot : wfNode reader hashLen hashLen root [] = true)
    (hr : reader cur = .ok (.Leaf l))
    (hstack : StackWF reader root stack)
    (hpid : stackParentId root stack = some cur) :
    ∀ remaining,
      ∃ st' dn,
        JellyfishMerkleIterator.seekLoop reader startHash remaining cur stack =
          .ok (.ok (st', dn)) ∧
        StackWF reader root st' ∧
        SemL reader hashLen ⟨root, st', dn⟩ =
          ([l].filter (fun x => hashLe startHash x.key.hash)) ++
            SRstrict reader hashLen stack := by
  intro remaining
  rw [JellyfishMerkleIterator.seekLoop, hr]
  dsimp only [SMTObject.merkle_hash]
  cases hcmp : hashLt l.key.hash startHash with
  | true =>
    obtain ⟨st', hclean, hwf', hsr⟩ := cleanup_stack_spec hstack
    rw [hclean]
    refine ⟨st', st'.isEmpty, rfl, hwf', ?_⟩
    have hfilter : [l].filter (fun x => hashLe startHash x.key.hash) = [] := by
      simp [hashLe, hcmp]
    rw [hfilter, List.nil_append, ← hsr hashLen]
    cases st' with
    | nil => simp [SemL, SR]
    | cons g rest' => simp [SemL]
  | false =>
    refine ⟨stack, false, rfl, hstack, ?_⟩
    have hfilter : [l].filter (fun x => hashLe startHash x.key.hash) = [l] := by
      simp [hashLe, hcmp]
    rw [hfilter]
    cases stack with
    | nil =>
      rw [stackParentId] at hpid
      have hrc : root = cur := by injection hpid
      subst hrc
      simp [SemL, SRstrict]
      rw [hr]
    | cons f rest =>
      obtain ⟨c, hco, hpid2⟩ := stackWF_cons_parent hstack
      rw [hpid2] at hpid
      have hcc : c.hash = cur := by injection hpid
      obtain ⟨hlenle, _, _⟩ := stackWF_parent_wf hroot hstack cur (by rw [hpid2, hcc])
      have hhash1 : 1 ≤ hashLen := by
        have : (f :: rest).length = rest.length + 1 := rfl
        omega
      obtain ⟨h', hh'⟩ : ∃ h', hashLen = h' + 1 := ⟨hashLen - 1, by omega⟩
      have hlu : leavesUnder reader hashLen c.hash = [l] := by
        rw [hh', leavesUnder, hcc, hr]
      have h16 := childAt_some_lt hco
      simp only [SemL, SR]
      rw [frameFrom, leavesFrom_cons reader hashLen f.node (cursorIndex f) h16, hco]
      dsimp only
      rw [hlu, SRstrict, frameAfter]
      rfl

lemma filter_split_ge {K V : Type} {reader : TreeReader K V} {hashLen m d : Nat}
    {ci : Nibble} {rest0 : List Nibble} {startHash : HashValue}
    {nd : InternalNode} {cur : NodeKey}
    (hlen : startHash.length = hashLen) (hd : d ≤ hashLen)
    (hdrop : startHash.drop d = ci :: rest0)
    (hr : reader cur = .ok (.Internal nd))
    (hch : ∀ (i : Nibble) c, nd.child i = some c →
      wfNode reader hashLen m c.hash (startHash.take d ++ [i]) = true)
    (hmlt : m < hashLen) :
    (leavesUnder reader (m + 2) cur).filter (fun x => hashLe startHash x.key.hash) =
      ((match nd.childAt ci.val with
        | some c => leavesUnder reader (m + 1) c.hash
        | none => []).filter (fun x => hashLe startHash x.key.hash)) ++
      leavesFrom reader hashLen nd (ci.val + 1) := by
  have hci16 : ci.val < 16 := ci.isLt
  rw [leavesUnder, hr]
  dsimp only
  have hsplit : childRange nd (leavesUnder reader (m + 1)) 0 16 =
      childRange nd (leavesUnder reader (m + 1)) 0 ci.val ++
        childRange nd (leavesUnder reader (m + 1)) (0 + ci.val)
          (1 + (15 - ci.val)) := by
    have h := childRange_split nd (leavesUnder reader (m + 1)) ci.val
      (1 + (15 - ci.val)) 0
    rw [show ci.val + (1 + (15 - ci.val)) = 16 from by omega] at h
    exact h
  rw [hsplit]
  rw [childRange_split nd _ 1 (15 - ci.val) (0 + ci.val)]
  rw [List.filter_append, List.filter_append]
  rw [filter_drop_lt hlen hd hdrop hch ci.val 0 (by omega)]
  rw [List.nil_append]
  simp only [Nat.zero_add]
  rw [filter_keep_gt hlen hd hdrop hch (15 - ci.val) (ci.val + 1) (by omega)]
  congr 1
  · congr 1
    rw [childRange, childRange, List.append_nil]
  · rw [leavesFrom]
    rw [show 16 - (ci.val + 1) = 15 - ci.val from by omega]
    apply childRange_congr
    intro j c _ _ hc
    have hj16 := childAt_some_lt hc
    have hwfc := hch ⟨j, hj16⟩ c (child_of_childAt hc hj16)
    rw [leavesUnder_stable m c.hash _ hashLen hwfc (by omega)]

lemma semL_empty_of_internal {K V : Type} {reader : TreeReader K V} {root : NodeKey}
    {hashLen : Nat} (h : ∃ nd, reader root = .ok (.Internal nd)) :
    SemL reader hashLen ⟨root, [], false⟩ = [] := by
  obtain ⟨nd, hr⟩ := h
  simp only [SemL]
  rw [hr]
  rfl

lemma root_internal_of_parent {K V : Type} {reader : TreeReader K V} {root : NodeKey}
    {stack : List NodeVisitInfo} {cur : NodeKey} {nd : InternalNode}
    (hstack : StackWF reader root stack)
    (hpid : stackParentId root stack = some cur)
    (hr : reader cur = .ok (.Internal nd)) :
    ∃ nd', reader root = .ok (.Internal nd') := by
  cases stack with
  | nil =>
    rw [stackParentId] at hpid
    have : root = cur := by injection hpid
    subst this
    exact ⟨nd, hr⟩
  | cons f rest => exact stackWF_root_internal hstack (by simp)

/-- The seek loop, semantically: starting from a well-formed position it
returns (without panicking or failing) a well-formed stack whose
remaining-leaves list is exactly the stored leaves of the current
subtree with fingerprint at least the starting fingerprint, followed by
the strict remainder of the surrounding stack. -/
lemma seekLoop_spec {K V : Type} {reader : TreeReader K V} {root : NodeKey}
    {hashLen : Nat} {startHash : HashValue}
    (hroot : wfNode reader hashLen hashLen root [] = true)
    (hlen : startHash.length = hashLen) :
    ∀ (remaining : List Nibble) (cur : NodeKey) (stack : List NodeVisitInfo) (d : Nat),
      d + remaining.length = hashLen →
      remaining = startHash.drop d →
      wfNode reader hashLen (hashLen - d) cur (startHash.take d) = true →
      StackWF reader root stack →
      stackParentId root stack = some cur →
      ∃ st' dn,
        JellyfishMerkleIterator.seekLoop reader startHash remaining cur stack =
          .ok (.ok (st', dn)) ∧
        StackWF reader root st' ∧
        SemL reader hashLen ⟨root, st', dn⟩ =
          ((leavesUnder reader (hashLen - d + 1) cur).filter
            (fun x => hashLe startHash x.key.hash)) ++ SRstrict reader hashLen stack := by
  intro remaining
  induction remaining with
  | nil =>
    intro cur stack d hd hdrop hwfp hstack hpid
    rcases wfNode_cases hwfp with ⟨l, hr⟩ | ⟨nd, hr, _⟩
    · obtain ⟨st', dn, hseek, hwf', hsem⟩ := seekLoop_at_leaf hroot hr hstack hpid []
      refine ⟨st', dn, hseek, hwf', ?_⟩
      rw [hsem]
      congr 2
      symm
      rw [leavesUnder, hr]
    · have hd0 : hashLen - d = 0 := by simp at hd; omega
      rw [hd0, wfNode_zero_internal hr] at hwfp
      exact absurd hwfp (by simp)
  | cons ci rest0 ih =>
    intro cur stack d hd hdrop hwfp hstack hpid
    rcases wfNode_cases hwfp with ⟨l, hr⟩ | ⟨nd, hr, _⟩
    · obtain ⟨st', dn, hseek, hwf', hsem⟩ :=
        seekLoop_at_leaf hroot hr hstack hpid (ci :: rest0)
      refine ⟨st', dn, hseek, hwf', ?_⟩
      rw [hsem]
      congr 2
      symm
      rw [leavesUnder, hr]
    · have hdlt : d < hashLen := by simp at hd; omega
      obtain ⟨m, hm⟩ : ∃ m, hashLen - d = m + 1 := ⟨hashLen - d - 1, by omega⟩
      have hwfp' := hwfp
      rw [hm] at hwfp'
      obtain ⟨hbm0, hch⟩ := wfNode_internal hr hwfp'
      rw [JellyfishMerkleIterator.seekLoop, hr]
      dsimp only
      cases hchild : nd.child ci with
      | some child =>
        have hbitci : nd.generate_bitmaps.testBit ci.val = true :=
          testBit_of_childAt_some (childAt_of_child hchild)
        obtain ⟨m2, hm21, hm22, hm23, hm24, hnn⟩ :=
          new_next_child_to_visit_spec cur nd ci ⟨ci.val, le_rfl, ci.isLt, hbitci⟩
        have hm2eq : m2 = ci.val := by
          rcases Nat.eq_or_lt_of_le hm21 with h | h
          · omega
          · have hfalse := hm24 ci.val le_rfl h
            rw [hbitci] at hfalse
            exact absurd hfalse (by simp)
        subst hm2eq
        rw [hnn]
        dsimp only
        have hdrop' : rest0 = startHash.drop (d + 1) :=
          (drop_succ_of_drop hdrop.symm).symm
        have htake' : startHash.take (d + 1) = startHash.take d ++ [ci] :=
          take_succ_of_drop hdrop.symm
        have hwfc : wfNode reader hashLen (hashLen - (d + 1)) child.hash
            (startHash.take (d + 1)) = true := by
          rw [htake', show hashLen - (d + 1) = m from by omega]
          exact hch ci child hchild
        have hfrwf : StackWF reader root
            (⟨cur, nd, nd.generate_bitmaps, 2 ^ ci.val⟩ :: stack) :=
          StackWF.cons hstack hpid hr rfl ⟨ci.val, ci.isLt, rfl, hbitci⟩
        have hcidxfr : cursorIndex ⟨cur, nd, nd.generate_bitmaps, 2 ^ ci.val⟩ = ci.val :=
          cursorIndex_two_pow ci.isLt rfl
        have hpid' : stackParentId root
            (⟨cur, nd, nd.generate_bitmaps, 2 ^ ci.val⟩ :: stack) = some child.hash := by
          rw [stackParentId, hcidxfr, childAt_of_child hchild]
          rfl
        obtain ⟨st', dn, hseek, hwf', hsem⟩ := ih child.hash
          (⟨cur, nd, nd.generate_bitmaps, 2 ^ ci.val⟩ :: stack) (d + 1)
          (by simp at hd ⊢; omega) hdrop' hwfc hfrwf hpid'
        refine ⟨st', dn, hseek, hwf', ?_⟩
        rw [hsem, SRstrict]
        rw [show hashLen - (d + 1) + 1 = m + 1 from by omega,
            show hashLen - d + 1 = m + 2 from by omega]
        rw [filter_split_ge hlen (by omega) hdrop.symm hr hch (by omega)]
        rw [childAt_of_child hchild]
        dsimp only
        rw [frameAfter, hcidxfr, List.append_assoc]
      | none =>
        have hcan : nd.childAt ci.val = none := childAt_of_child hchild
        have hbitci : nd.generate_bitmaps.testBit ci.val = false := by
          rw [generate_bitmaps_testBit, hcan]
          simp
        rw [if_neg hbm0]
        have hlzeq : 15 - lz16 nd.generate_bitmaps = hbAux nd.generate_bitmaps 15 := by
          rw [lz16_eq_of_ne_zero _ hbm0]
          have := hbAux_le nd.generate_bitmaps 15
          omega
        obtain ⟨j0, hj016, hj0⟩ :=
          exists_testBit_lt_16 _ hbm0 (generate_bitmaps_lt nd)
        obtain ⟨hj0le, hhbbit, hhbhigh⟩ := hbAux_spec _ j0 15 (by omega) hj0
        have hhble := hbAux_le nd.generate_bitmaps 15
        by_cases hgt : ci.val < 15 - lz16 nd.generate_bitmaps
        · rw [if_pos hgt]
          obtain ⟨m2, hm21, hm22, hm23, hm24, hnn⟩ :=
            new_next_child_to_visit_spec cur nd ci
              ⟨hbAux nd.generate_bitmaps 15, by omega, by omega, hhbbit⟩
          rw [hnn]
          dsimp only
          have hm2gt : ci.val < m2 := by
            rcases Nat.eq_or_lt_of_le hm21 with h | h
            · rw [← h] at hm23
              rw [hbitci] at hm23
              exact absurd hm23 (by simp)
            · exact h
          have hfrwf : StackWF reader root
              (⟨cur, nd, nd.generate_bitmaps, 2 ^ m2⟩ :: stack) :=
            StackWF.cons hstack hpid hr rfl ⟨m2, hm22, rfl, hm23⟩
          refine ⟨_, false, rfl, hfrwf, ?_⟩
          have hcidxfr : cursorIndex ⟨cur, nd, nd.generate_bitmaps, 2 ^ m2⟩ = m2 :=
            cursorIndex_two_pow hm22 rfl
          simp only [SemL, SR]
          rw [frameFrom, hcidxfr]
          rw [show hashLen - d + 1 = m + 2 from by omega]
          rw [filter_split_ge hlen (by omega) hdrop.symm hr hch (by omega)]
          rw [hcan]
          dsimp only
          rw [List.filter_nil, List.nil_append]
          have hcongr : leavesFrom reader hashLen nd (ci.val + 1) =
              leavesFrom reader hashLen nd m2 := by
            apply leavesFrom_congr reader hashLen nd (by omega) (by omega)
            intro j hj1 hj2
            apply childAt_none_of_testBit_false
            exact hm24 j (by omega) hj2
          rw [hcongr]
          rfl
        · rw [if_neg hgt]
          obtain ⟨st', hclean, hwf', hsr⟩ := cleanup_stack_spec hstack
          rw [hclean]
          refine ⟨st', false, rfl, hwf', ?_⟩
          rw [show hashLen - d + 1 = m + 2 from by omega]
          rw [filter_split_ge hlen (by omega) hdrop.symm hr hch (by omega)]
          rw [hcan]
          dsimp only
          have hnone : leavesFrom reader hashLen nd (ci.val + 1) = [] := by
            apply leavesFrom_nil
            intro j hj1 hj2
            apply childAt_none_of_testBit_false
            exact hhbhigh j (by omega) (by omega)
          rw [hnone, List.filter_nil]
          simp only [List.append_nil, List.nil_append]
          rw [← hsr hashLen]
          cases hst : st' with
          | nil =>
            rw [SR]
            exact semL_empty_of_internal (root_internal_of_parent hstack hpid hr)
          | cons g rest' =>
            simp only [SemL]
            rfl

/-- Construction, semantically: on a well-formed snapshot, `new`
returns a well-formed state whose remaining-leaves list is exactly the
stored leaves with fingerprint at least the starting key's. -/
lemma new_spec_iterator {K V : Type} {reader : TreeReader K V} {root : NodeKey}
    {hashLen : Nat} {startingKey : SMTObject K}
    (hroot : wfNode reader hashLen hashLen root [] = true)
    (hlen : startingKey.hash.length = hashLen) :
    ∃ s0 : JellyfishMerkleIterator K V,
      JellyfishMerkleIterator.new reader root startingKey = .ok (.ok s0) ∧
      s0.state_root_hash = root ∧
      StackWF reader root s0.parent_stack ∧
      SemL reader hashLen s0 =
        (leavesUnder reader (hashLen + 1) root).filter
          (fun x => hashLe startingKey.hash x.key.hash) := by
  obtain ⟨st', dn, hseek, hwf', hsem⟩ := seekLoop_spec hroot hlen
    startingKey.hash root [] 0 (by simpa using hlen) (by simp)
    (by simpa using hroot) StackWF.nil rfl
  refine ⟨⟨root, st', dn⟩, ?_, rfl, hwf', ?_⟩
  · rw [JellyfishMerkleIterator.new]
    dsimp only [SMTObject.merkle_hash]
    rw [hseek]
  · rw [hsem]
    simp [SRstrict]

/-- The successfully yielded pairs of a pull-result list, in order. -/
def okYields {K V : Type}
    (items : List (Option (Except String (SMTObject K × SMTObject V)))) :
    List (SMTObject K × SMTObject V) :=
  items.filterMap (fun it =>
    match it with
    | some (.ok p) => some p
    | _ => none)

/-- Running `n` pulls from a well-formed state succeeds and yields, in
order, exactly the pairs of the first `n` entries of the state's
remaining-leaves list. -/
lemma runPulls_spec {K V : Type} {reader : TreeReader K V} {hashLen : Nat}
    {fuel : Nat} (hfuel : hashLen + 1 ≤ fuel) :
    ∀ (n : Nat) (s : JellyfishMerkleIterator K V),
      wfNode reader hashLen hashLen s.state_root_hash [] = true →
      StackWF reader s.state_root_hash s.parent_stack →
      ∃ items sN,
        JellyfishMerkleIterator.runPulls reader fuel s n = .ok (items, sN) ∧
        okYields items =
          ((SemL reader hashLen s).take n).map (fun l => (l.key, l.value)) ∧
        SemL reader hashLen sN = (SemL reader hashLen s).drop n ∧
        sN.state_root_hash = s.state_root_hash ∧
        StackWF reader sN.state_root_hash sN.parent_stack := by
  intro n
  induction n with
  | zero =>
    intro s hroot hwf
    exact ⟨[], s, rfl, by simp [okYields], by simp, rfl, hwf⟩
  | succ n ih =>
    intro s hroot hwf
    obtain ⟨s1, hnext, hwf1, hroot1, hsem1⟩ := next_spec hroot hwf hfuel
    obtain ⟨items, sN, hrun, hyields, hsemN, hrootN, hwfN⟩ := ih s1
      (by rw [hroot1]; exact hroot) hwf1
    refine ⟨(SemL reader hashLen s).head?.map (fun l => .ok (l.key, l.value)) :: items,
      sN, ?_, ?_, ?_, by rw [hrootN, hroot1], hwfN⟩
    · rw [JellyfishMerkleIterator.runPulls, hnext]
      dsimp only
      rw [hrun]
    · cases hsem : SemL reader hashLen s with
      | nil =>
        rw [hsem] at hnext hsem1
        simp only [List.head?_nil, Option.map_none] at hnext
        rw [okYields, List.filterMap_cons]
        rw [← okYields, hyields, hsem1]
        simp
      | cons l tl =>
        rw [hsem] at hnext hsem1
        simp only [List.head?_cons, Option.map_some] at hnext
        rw [okYields, List.filterMap_cons]
        rw [← okYields, hyields, hsem1]
        simp
    · rw [hsemN, hsem1, ← List.drop_one, List.drop_drop]
      congr 1
      omega

/-! ## Exhaustion and invariant-preservation lemmas -/

lemma descendLoop_no_none {K V : Type} {reader : TreeReader K V} :
    ∀ fuel (st st' : List NodeVisitInfo)
      (r : Option (Except String (SMTObject K × SMTObject V))),
      JellyfishMerkleIterator.descendLoop reader st fuel = .ok (r, st') →
      r ≠ none := by
  intro fuel
  induction fuel with
  | zero =>
    intro st st' r h
    rw [JellyfishMerkleIterator.descendLoop.eq_def] at h
    exact absurd h (by simp)
  | succ fuel ih =>
    intro st st' r h
    match st with
    | [] =>
      rw [JellyfishMerkleIterator.descendLoop] at h
      exact absurd h (by simp)
    | info :: rest =>
      rw [JellyfishMerkleIterator.descendLoop] at h
      by_cases h16 : tz16 info.next_child_to_visit < 16
      · rw [dif_pos h16] at h
        cases hchild : info.node.child ⟨tz16 info.next_child_to_visit, h16⟩ with
        | none => rw [hchild] at h; exact absurd h (by simp)
        | some child =>
          rw [hchild] at h
          dsimp only at h
          cases hrc : reader child.hash with
          | error e =>
            rw [hrc] at h
            simp only [Except.ok.injEq, Prod.mk.injEq] at h
            intro hr
            rw [hr] at h
            simp at h
          | ok nd =>
            rw [hrc] at h
            cases nd with
            | Internal nd2 =>
              dsimp only at h
              cases hnew : NodeVisitInfo.new child.hash nd2 with
              | error p => rw [hnew] at h; exact absurd h (by simp)
              | ok fr =>
                rw [hnew] at h
                exact ih _ _ _ h
            | Leaf l =>
              dsimp only at h
              cases hclean : JellyfishMerkleIterator.cleanup_stack (info :: rest) with
              | error p => rw [hclean] at h; exact absurd h (by simp)
              | ok st2 =>
                rw [hclean] at h
                simp only [Except.ok.injEq, Prod.mk.injEq] at h
                intro hr
                rw [hr] at h
                simp at h
            | Null =>
              simp only [Except.ok.injEq, Prod.mk.injEq] at h
              intro hr
              rw [hr] at h
              simp at h
      · rw [dif_neg h16] at h
        exact absurd h (by simp)

lemma next_none_stable {K V : Type} {reader : TreeReader K V} {fuel : Nat}
    {s s' : JellyfishMerkleIterator K V}
    (h : JellyfishMerkleIterator.next reader fuel s = .ok (none, s')) :
    s' = s ∧ ∀ fuel', JellyfishMerkleIterator.next reader fuel' s = .ok (none, s) := by
  rw [JellyfishMerkleIterator.next] at h
  by_cases hdone : s.done
  · rw [if_pos hdone] at h
    have hs : s' = s := by
      simp only [Except.ok.injEq, Prod.mk.injEq] at h
      exact h.2.symm
    refine ⟨hs, fun fuel' => ?_⟩
    rw [JellyfishMerkleIterator.next, if_pos hdone]
  · rw [if_neg hdone] at h
    cases hstack : s.parent_stack with
    | nil =>
      rw [hstack] at h
      cases hr : reader s.state_root_hash with
      | error e => rw [hr] at h; exact absurd h (by simp)
      | ok nd =>
        rw [hr] at h
        cases nd with
        | Leaf l => exact absurd h (by simp)
        | Null => exact absurd h (by simp)
        | Internal nd2 =>
          have hs : s' = s := by
            simp only [Except.ok.injEq, Prod.mk.injEq] at h
            exact h.2.symm
          refine ⟨hs, fun fuel' => ?_⟩
          rw [JellyfishMerkleIterator.next, if_neg hdone, hstack, hr]
    | cons f rest =>
      rw [hstack] at h
      cases hloop : JellyfishMerkleIterator.descendLoop reader (f :: rest) fuel with
      | error p => rw [hloop] at h; exact absurd h (by simp)
      | ok pr =>
        rw [hloop] at h
        obtain ⟨item, st2⟩ := pr
        simp only [Except.ok.injEq, Prod.mk.injEq] at h
        exact absurd h.1 (descendLoop_no_none fuel (f :: rest) st2 item hloop)

lemma runPulls_none_forever {K V : Type} {reader : TreeReader K V}
    {s : JellyfishMerkleIterator K V}
    (h : ∀ fuel', JellyfishMerkleIterator.next reader fuel' s = .ok (none, s)) :
    ∀ n fuel', JellyfishMerkleIterator.runPulls reader fuel' s n =
      .ok (List.replicate n none, s) := by
  intro n
  induction n with
  | zero => intro fuel'; rfl
  | succ n ih =>
    intro fuel'
    rw [JellyfishMerkleIterator.runPulls, h fuel']
    dsimp only
    rw [ih fuel']
    simp [List.replicate_succ]

lemma runPulls_done {K V : Type} {reader : TreeReader K V}
    {s : JellyfishMerkleIterator K V} (h : s.done = true) :
    ∀ n fuel', JellyfishMerkleIterator.runPulls reader fuel' s n =
      .ok (List.replicate n none, s) := by
  apply runPulls_none_forever
  intro fuel'
  rw [JellyfishMerkleIterator.next, if_pos h]

lemma tzAux_testBit (x : Nat) : ∀ fuel p, tzAux x fuel p < p + fuel →
    x.testBit (tzAux x fuel p) = true := by
  intro fuel
  induction fuel with
  | zero => intro p h; rw [tzAux] at h; omega
  | succ fuel ih =>
    intro p h
    by_cases hp : x.testBit p
    · rw [tzAux, if_pos hp]
      exact hp
    · rw [tzAux, if_neg hp] at h ⊢
      exact ih (p + 1) (by omega)

lemma tz16_testBit {x : Nat} (h : tz16 x ≤ 15) : x.testBit (tz16 x) = true :=
  tzAux_testBit x 16 0 (by rw [tz16] at h; omega)

lemma whileScan_pow {bitmap : Nat} : ∀ fuel p v,
    whileScan bitmap (2 ^ p % 65536) fuel = some v →
    ∃ m, m < 16 ∧ v = 2 ^ m ∧ bitmap.testBit m = true := by
  intro fuel
  induction fuel with
  | zero => intro p v h; rw [whileScan] at h; exact absurd h (by simp)
  | succ fuel ih =>
    intro p v h
    by_cases hp : p < 16
    · have hmod : (2 : Nat) ^ p % 65536 = 2 ^ p := Nat.mod_eq_of_lt (by
        have h65 : (65536 : Nat) = 2 ^ 16 := by norm_num
        rw [h65]
        exact Nat.pow_lt_pow_right (by omega) hp)
      rw [whileScan, hmod] at h
      by_cases hand : 2 ^ p &&& bitmap ≠ 0
      · rw [if_pos hand] at h
        have hv : 2 ^ p = v := by injection h
        exact ⟨p, hp, hv.symm, (and_two_pow_ne_zero bitmap p).mp hand⟩
      · rw [if_neg hand, if_neg (by positivity : ¬ (2 : Nat) ^ p = 0)] at h
        have hshift : ((2 : Nat) ^ p <<< 1) % 65536 = 2 ^ (p + 1) % 65536 := by
          rw [Nat.shiftLeft_eq, pow_one, pow_succ]
        rw [hshift] at h
        exact ih (p + 1) v h
    · have hmod : (2 : Nat) ^ p % 65536 = 0 := by
        have h65 : (65536 : Nat) = 2 ^ 16 := by norm_num
        obtain ⟨t, ht⟩ : (2 : Nat) ^ 16 ∣ 2 ^ p := pow_dvd_pow 2 (by omega)
        rw [h65, ht, Nat.mul_mod_right]
      rw [whileScan, hmod] at h
      simp at h

lemma new_next_frameInv {K : Type} {k : NodeKey} {nd : InternalNode} {n : Nibble}
    {fr : NodeVisitInfo}
    (h : NodeVisitInfo.new_next_child_to_visit k nd n = .ok fr) : FrameInv fr := by
  rw [NodeVisitInfo.new_next_child_to_visit] at h
  cases hscan : whileScan nd.generate_bitmaps (1 <<< n.val) 17 with
  | none => rw [hscan] at h; exact absurd h (by simp)
  | some v =>
    rw [hscan] at h
    have h1 : (1 : Nat) <<< n.val = 2 ^ n.val % 65536 := by
      rw [Nat.shiftLeft_eq, one_mul]
      symm
      exact Nat.mod_eq_of_lt (by
        have h65 : (65536 : Nat) = 2 ^ 16 := by norm_num
        rw [h65]
        exact Nat.pow_lt_pow_right (by omega) n.isLt)
    rw [h1] at hscan
    obtain ⟨m, hm1, hm2, hm3⟩ := whileScan_pow 17 n.val v hscan
    dsimp only at h
    cases h
    exact ⟨m, hm1, hm2, hm3⟩

lemma visit_new_frameInv {k : NodeKey} {nd : InternalNode} {fr : NodeVisitInfo}
    (h : NodeVisitInfo.new k nd = .ok fr) : FrameInv fr := by
  rw [NodeVisitInfo.new] at h
  by_cases htz : tz16 nd.generate_bitmaps ≤ 15
  · rw [if_pos htz] at h
    cases h
    refine ⟨tz16 nd.generate_bitmaps, by omega, ?_, tz16_testBit htz⟩
    rw [Nat.shiftLeft_eq, one_mul]
  · rw [if_neg htz] at h
    exact absurd h (by simp)

lemma advance_frameInv {f f' : NodeVisitInfo} (hinv : FrameInv f)
    (h : f.advance = .ok f') : FrameInv f' := by
  obtain ⟨c, hc, hcur, hbit⟩ := hinv
  rw [NodeVisitInfo.advance, is_rightmost_spec f c hc hcur hbit] at h
  by_cases heq : c = hbAux f.children_bitmap 15
  · rw [decide_eq_true heq] at h
    exact absurd h (by simp)
  · rw [decide_eq_false heq] at h
    cases hscan : whileScan f.children_bitmap
        ((f.next_child_to_visit <<< 1) % 65536) 17 with
    | none => rw [hscan] at h; exact absurd h (by simp)
    | some v =>
      rw [hscan] at h
      have hshift : (f.next_child_to_visit <<< 1) % 65536 = 2 ^ (c + 1) % 65536 := by
        rw [hcur, Nat.shiftLeft_eq, pow_one, pow_succ]
      rw [hshift] at hscan
      obtain ⟨m, hm1, hm2, hm3⟩ := whileScan_pow 17 (c + 1) v hscan
      dsimp only at h
      cases h
      exact ⟨m, hm1, hm2, hm3⟩

lemma cleanup_frames : ∀ st : List NodeVisitInfo, (∀ f ∈ st, FrameInv f) →
    ∃ st', JellyfishMerkleIterator.cleanup_stack st = .ok st' ∧
      ∀ f ∈ st', FrameInv f := by
  intro st
  induction st with
  | nil => exact fun _ => ⟨[], rfl, by simp⟩
  | cons f rest ih =>
    intro hinv
    obtain ⟨c, hc, hcur, hbit⟩ := hinv f (by simp)
    obtain ⟨hle, hhbbit, _⟩ := hbAux_spec f.children_bitmap c 15 (by omega) hbit
    rw [JellyfishMerkleIterator.cleanup_stack,
      is_rightmost_spec f c hc hcur hbit]
    by_cases heq : c = hbAux f.children_bitmap 15
    · rw [decide_eq_true heq]
      obtain ⟨st', h1, h2⟩ := ih (fun g hg => hinv g (by simp [hg]))
      exact ⟨st', h1, h2⟩
    · rw [decide_eq_false heq]
      have hclt : c < hbAux f.children_bitmap 15 := lt_of_le_of_ne hle heq
      obtain ⟨m, hm1, hm2, hm3, hm4, hadv⟩ := advance_spec f c hc hcur hbit hclt
      rw [hadv]
      refine ⟨_, rfl, ?_⟩
      intro g hg
      rcases List.mem_cons.mp hg with hg | hg
      · subst hg
        exact ⟨m, hm2, rfl, hm3⟩
      · exact hinv g (by simp [hg])

lemma seekLoop_frames {K V : Type} {reader : TreeReader K V} {startHash : HashValue} :
    ∀ (nibbles : List Nibble) (cur : NodeKey) (stack st' : List NodeVisitInfo)
      (dn : Bool), (∀ f ∈ stack, FrameInv f) →
      JellyfishMerkleIterator.seekLoop reader startHash nibbles cur stack =
        .ok (.ok (st', dn)) →
      ∀ f ∈ st', FrameInv f := by
  intro nibbles
  induction nibbles with
  | nil =>
    intro cur stack st' dn hinv h
    rw [JellyfishMerkleIterator.seekLoop] at h
    cases hr : reader cur with
    | error e => rw [hr] at h; exact absurd h (by simp)
    | ok nd =>
      rw [hr] at h
      cases nd with
      | Internal nd2 => exact absurd h (by simp)
      | Leaf l =>
        dsimp only at h
        by_cases hcmp : hashLt l.key.merkle_hash startHash
        · rw [if_pos hcmp] at h
          obtain ⟨st2, hclean, hin2⟩ := cleanup_frames stack hinv
          rw [hclean] at h
          dsimp only at h
          simp only [Except.ok.injEq, Prod.mk.injEq] at h
          rw [← h.1]
          exact hin2
        · rw [if_neg hcmp] at h
          simp only [Except.ok.injEq, Prod.mk.injEq] at h
          rw [← h.1]
          exact hinv
      | Null =>
        dsimp only at h
        simp only [Except.ok.injEq, Prod.mk.injEq] at h
        rw [← h.1]
        exact hinv
  | cons ci rest ih =>
    intro cur stack st' dn hinv h
    rw [JellyfishMerkleIterator.seekLoop] at h
    cases hr : reader cur with
    | error e => rw [hr] at h; exact absurd h (by simp)
    | ok nd =>
      rw [hr] at h
      cases nd with
      | Leaf l =>
        dsimp only at h
        by_cases hcmp : hashLt l.key.merkle_hash startHash
        · rw [if_pos hcmp] at h
          obtain ⟨st2, hclean, hin2⟩ := cleanup_frames stack hinv
          rw [hclean] at h
          dsimp only at h
          simp only [Except.ok.injEq, Prod.mk.injEq] at h
          rw [← h.1]
          exact hin2
        · rw [if_neg hcmp] at h
          simp only [Except.ok.injEq, Prod.mk.injEq] at h
          rw [← h.1]
          exact hinv
      | Null =>
        dsimp only at h
        simp only [Except.ok.injEq, Prod.mk.injEq] at h
        rw [← h.1]
        exact hinv
      | Internal nd2 =>
        dsimp only at h
        cases hchild : nd2.child ci with
        | some child =>
          rw [hchild] at h
          cases hnn : NodeVisitInfo.new_next_child_to_visit cur nd2 ci with
          | error p => rw [hnn] at h; exact absurd h (by simp)
          | ok fr =>
            rw [hnn] at h
            exact ih child.hash (fr :: stack) st' dn
              (fun g hg => by
                rcases List.mem_cons.mp hg with hg | hg
                · subst hg; exact new_next_frameInv (K := K) hnn
                · exact hinv g hg) h
        | none =>
          rw [hchild] at h
          by_cases hbm : nd2.generate_bitmaps = 0
          · rw [if_pos hbm] at h
            exact absurd h (by simp)
          · rw [if_neg hbm] at h
            by_cases hgt : ci.val < 15 - lz16 nd2.generate_bitmaps
            · rw [if_pos hgt] at h
              cases hnn : NodeVisitInfo.new_next_child_to_visit cur nd2 ci with
              | error p => rw [hnn] at h; exact absurd h (by simp)
              | ok fr =>
                rw [hnn] at h
                dsimp only at h
                simp only [Except.ok.injEq, Prod.mk.injEq] at h
                rw [← h.1]
                intro g hg
                rcases List.mem_cons.mp hg with hg | hg
                · subst hg; exact new_next_frameInv (K := K) hnn
                · exact hinv g hg
            · rw [if_neg hgt] at h
              obtain ⟨st2, hclean, hin2⟩ := cleanup_frames stack hinv
              rw [hclean] at h
              dsimp only at h
              simp only [Except.ok.injEq, Prod.mk.injEq] at h
              rw [← h.1]
              exact hin2

lemma descendLoop_frames {K V : Type} {reader : TreeReader K V} :
    ∀ fuel (st st' : List NodeVisitInfo)
      (r : Option (Except String (SMTObject K × SMTObject V))),
      (∀ f ∈ st, FrameInv f) →
      JellyfishMerkleIterator.descendLoop reader st fuel = .ok (r, st') →
      ∀ f ∈ st', FrameInv f := by
  intro fuel
  induction fuel with
  | zero =>
    intro st st' r _ h
    rw [JellyfishMerkleIterator.descendLoop.eq_def] at h
    exact absurd h (by simp)
  | succ fuel ih =>
    intro st st' r hinv h
    match st with
    | [] =>
      rw [JellyfishMerkleIterator.descendLoop] at h
      exact absurd h (by simp)
    | info :: rest =>
      rw [JellyfishMerkleIterator.descendLoop] at h
      by_cases h16 : tz16 info.next_child_to_visit < 16
      · rw [dif_pos h16] at h
        cases hchild : info.node.child ⟨tz16 info.next_child_to_visit, h16⟩ with
        | none => rw [hchild] at h; exact absurd h (by simp)
        | some child =>
          rw [hchild] at h
          dsimp only at h
          cases hrc : reader child.hash with
          | error e =>
            rw [hrc] at h
            simp only [Except.ok.injEq, Prod.mk.injEq] at h
            rw [← h.2]
            exact hinv
          | ok nd =>
            rw [hrc] at h
            cases nd with
            | Internal nd2 =>
              dsimp only at h
              cases hnew : NodeVisitInfo.new child.hash nd2 with
              | error p => rw [hnew] at h; exact absurd h (by simp)
              | ok fr =>
                rw [hnew] at h
                exact ih (fr :: info :: rest) st' r
                  (fun g hg => by
                    rcases List.mem_cons.mp hg with hg | hg
                    · subst hg; exact visit_new_frameInv hnew
                    · exact hinv g hg) h
            | Leaf l =>
              dsimp only at h
              obtain ⟨st2, hclean, hin2⟩ :=
                cleanup_frames (info :: rest) hinv
              rw [hclean] at h
              simp only [Except.ok.injEq, Prod.mk.injEq] at h
              rw [← h.2]
              exact hin2
            | Null =>
              simp only [Except.ok.injEq, Prod.mk.injEq] at h
              rw [← h.2]
              exact hinv
      · rw [dif_neg h16] at h
        exact absurd h (by simp)

lemma next_frames {K V : Type} {reader : TreeReader K V} {fuel : Nat}
    {s s' : JellyfishMerkleIterator K V}
    {it : Option (Except String (SMTObject K × SMTObject V))}
    (hinv : ∀ f ∈ s.parent_stack, FrameInv f)
    (h : JellyfishMerkleIterator.next reader fuel s = .ok (it, s')) :
    ∀ f ∈ s'.parent_stack, FrameInv f := by
  rw [JellyfishMerkleIterator.next] at h
  by_cases hdone : s.done
  · rw [if_pos hdone] at h
    simp only [Except.ok.injEq, Prod.mk.injEq] at h
    rw [← h.2]
    exact hinv
  · rw [if_neg hdone] at h
    cases hstack : s.parent_stack with
    | nil =>
      rw [hstack] at h
      cases hr : reader s.state_root_hash with
      | error e =>
        rw [hr] at h
        simp only [Except.ok.injEq, Prod.mk.injEq] at h
        rw [← h.2, hstack]
        simp
      | ok nd =>
        rw [hr] at h
        cases nd with
        | Leaf l =>
          simp only [Except.ok.injEq, Prod.mk.injEq] at h
          rw [← h.2]
          simp only [hstack]
          simp
        | Internal nd2 =>
          simp only [Except.ok.injEq, Prod.mk.injEq] at h
          rw [← h.2, hstack]
          simp
        | Null => exact absurd h (by simp)
    | cons f rest =>
      rw [hstack] at h
      cases hloop : JellyfishMerkleIterator.descendLoop reader (f :: rest) fuel with
      | error p => rw [hloop] at h; exact absurd h (by simp)
      | ok pr =>
        rw [hloop] at h
        obtain ⟨item, st2⟩ := pr
        simp only [Except.ok.injEq, Prod.mk.injEq] at h
        rw [← h.2]
        exact descendLoop_frames fuel (f :: rest) st2 item
          (by rw [← hstack]; exact hinv) hloop

lemma runPulls_frames {K V : Type} {reader : TreeReader K V} {fuel : Nat} :
    ∀ (n : Nat) (s sN : JellyfishMerkleIterator K V) items,
      (∀ f ∈ s.parent_stack, FrameInv f) →
      JellyfishMerkleIterator.runPulls reader fuel s n = .ok (items, sN) →
      ∀ f ∈ sN.parent_stack, FrameInv f := by
  intro n
  induction n with
  | zero =>
    intro s sN items hinv h
    rw [JellyfishMerkleIterator.runPulls] at h
    simp only [Except.ok.injEq, Prod.mk.injEq] at h
    rw [← h.2]
    exact hinv
  | succ n ih =>
    intro s sN items hinv h
    rw [JellyfishMerkleIterator.runPulls] at h
    cases hnext : JellyfishMerkleIterator.next reader fuel s with
    | error p => rw [hnext] at h; exact absurd h (by simp)
    | ok pr =>
      rw [hnext] at h
      obtain ⟨item, s1⟩ := pr
      dsimp only at h
      cases hrun : JellyfishMerkleIterator.runPulls reader fuel s1 n with
      | error p => rw [hrun] at h; exact absurd h (by simp)
      | ok pr2 =>
        rw [hrun] at h
        obtain ⟨items2, s2⟩ := pr2
        simp only [Except.ok.injEq, Prod.mk.injEq] at h
        rw [← h.2]
        exact ih s1 s2 items2 (next_frames hinv hnext) hrun

/-! ## Failed-pull analysis (claims C4 and C5) -/

lemma descendLoop_error_suffix {K V : Type} {reader : TreeReader K V} :
    ∀ fuel (st st' : List NodeVisitInfo) (e : String),
      JellyfishMerkleIterator.descendLoop reader st fuel =
        .ok (some (.error e), st') →
      (∃ fs, st' = fs ++ st) ∧
      ∃ f rest2, st' = f :: rest2 ∧
        ∃ h16 : tz16 f.next_child_to_visit < 16,
        ∃ c, f.node.child ⟨tz16 f.next_child_to_visit, h16⟩ = some c ∧
          (reader c.hash = .error e ∨
            (reader c.hash = .ok .Null ∧ e = "Should not reach a null node.")) := by
  intro fuel
  induction fuel with
  | zero =>
    intro st st' e h
    rw [JellyfishMerkleIterator.descendLoop.eq_def] at h
    exact absurd h (by simp)
  | succ fuel ih =>
    intro st st' e h
    match st with
    | [] =>
      rw [JellyfishMerkleIterator.descendLoop] at h
      exact absurd h (by simp)
    | info :: rest =>
      rw [JellyfishMerkleIterator.descendLoop] at h
      by_cases h16 : tz16 info.next_child_to_visit < 16
      · rw [dif_pos h16] at h
        cases hchild : info.node.child ⟨tz16 info.next_child_to_visit, h16⟩ with
        | none => rw [hchild] at h; exact absurd h (by simp)
        | some child =>
          rw [hchild] at h
          dsimp only at h
          cases hrc : reader child.hash with
          | error e0 =>
            rw [hrc] at h
            simp only [Except.ok.injEq, Prod.mk.injEq, Option.some.injEq,
              Except.error.injEq] at h
            obtain ⟨he, hst⟩ := h
            subst he
            exact ⟨⟨[], hst.symm⟩, info, rest, hst.symm, h16, child, hchild,
              Or.inl hrc⟩
          | ok nd =>
            rw [hrc] at h
            cases nd with
            | Internal nd2 =>
              dsimp only at h
              cases hnew : NodeVisitInfo.new child.hash nd2 with
              | error p => rw [hnew] at h; exact absurd h (by simp)
              | ok fr =>
                rw [hnew] at h
                obtain ⟨⟨fs, hfs⟩, hexit⟩ := ih (fr :: info :: rest) st' e h
                refine ⟨⟨fs ++ [fr], ?_⟩, hexit⟩
                rw [hfs, List.append_assoc]
                rfl
            | Leaf l =>
              dsimp only at h
              cases hclean : JellyfishMerkleIterator.cleanup_stack (info :: rest) with
              | error p => rw [hclean] at h; exact absurd h (by simp)
              | ok st2 =>
                rw [hclean] at h
                simp at h
            | Null =>
              simp only [Except.ok.injEq, Prod.mk.injEq, Option.some.injEq,
                Except.error.injEq] at h
              obtain ⟨he, hst⟩ := h
              exact ⟨⟨[], hst.symm⟩, info, rest, hst.symm, h16, child, hchild,
                Or.inr ⟨hrc, he.symm⟩⟩
      · rw [dif_neg h16] at h
        exact absurd h (by simp)

lemma descendLoop_error_stable {K V : Type} {reader : TreeReader K V}
    {f : NodeVisitInfo} {rest2 : List NodeVisitInfo} {e : String}
    (h16 : tz16 f.next_child_to_visit < 16) {c : Child}
    (hc : f.node.child ⟨tz16 f.next_child_to_visit, h16⟩ = some c)
    (hre : reader c.hash = .error e ∨
      (reader c.hash = .ok .Null ∧ e = "Should not reach a null node.")) :
    ∀ fuel, JellyfishMerkleIterator.descendLoop reader (f :: rest2) (fuel + 1) =
      .ok (some (.error e), f :: rest2) := by
  intro fuel
  rw [JellyfishMerkleIterator.descendLoop, dif_pos h16, hc]
  dsimp only
  rcases hre with hre | ⟨hre, he⟩
  · rw [hre]
  · rw [hre, he]

/-- C4, amended: a failed pull extends the Traversal Stack by the frames
of the internal nodes read successfully during the descent (the prior
stack survives as the lower part), preserves the rest of the state, and
stabilises: every subsequent pull re-attempts the same failing read and
returns the identical failure with the state unchanged. -/
theorem claim_C4 {K V : Type} {reader : TreeReader K V} {fuel : Nat}
    {s s' : JellyfishMerkleIterator K V} {e : String}
    (h : JellyfishMerkleIterator.next reader fuel s =
      .ok (some (.error e), s')) :
    (∃ fs, s'.parent_stack = fs ++ s.parent_stack) ∧
    s'.done = s.done ∧ s'.state_root_hash = s.state_root_hash ∧
    ∀ fuel', JellyfishMerkleIterator.next reader (fuel' + 1) s' =
      .ok (some (.error e), s') := by
  rw [JellyfishMerkleIterator.next] at h
  by_cases hdone : s.done
  · rw [if_pos hdone] at h
    exact absurd h (by simp)
  · rw [if_neg hdone] at h
    cases hstack : s.parent_stack with
    | nil =>
      rw [hstack] at h
      cases hr : reader s.state_root_hash with
      | error e0 =>
        rw [hr] at h
        simp only [Except.ok.injEq, Prod.mk.injEq, Option.some.injEq,
          Except.error.injEq] at h
        obtain ⟨he, hs⟩ := h
        subst he
        rw [← hs]
        refine ⟨⟨[], by simp [hstack]⟩, rfl, rfl, fun fuel' => ?_⟩
        rw [JellyfishMerkleIterator.next, if_neg hdone, hstack, hr]
      | ok nd =>
        rw [hr] at h
        cases nd with
        | Leaf l => exact absurd h (by simp)
        | Internal nd2 => exact absurd h (by simp)
        | Null => exact absurd h (by simp)
    | cons f rest =>
      rw [hstack] at h
      cases hloop : JellyfishMerkleIterator.descendLoop reader (f :: rest) fuel with
      | error p => rw [hloop] at h; exact absurd h (by simp)
      | ok pr =>
        rw [hloop] at h
        obtain ⟨item, st2⟩ := pr
        simp only [Except.ok.injEq, Prod.mk.injEq] at h
        obtain ⟨hit, hs⟩ := h
        rw [hit] at hloop
        obtain ⟨⟨fs, hfs⟩, f2, rest2, hst2, h16, c, hc, hre⟩ :=
          descendLoop_error_suffix fuel (f :: rest) st2 e hloop
        refine ⟨⟨fs, by rw [← hs, hfs]⟩, by rw [← hs], by rw [← hs],
          fun fuel' => ?_⟩
        rw [JellyfishMerkleIterator.next]
        have hdone' : s'.done = false := by
          rw [← hs]
          exact Bool.eq_false_iff.mpr hdone
        rw [if_neg (by rw [hdone']; simp)]
        have hps : s'.parent_stack = f2 :: rest2 := by rw [← hs, hst2]
        rw [hps, descendLoop_error_stable h16 hc hre fuel']
        dsimp only
        congr 1
        rw [Prod.mk.injEq]
        refine ⟨rfl, ?_⟩
        rw [← hs, hst2]

/-- A two-level store for exercising a mid-descent storage failure:
node 0 is a branch whose only child (slot 0) is node 1. -/
def c4Node0 : InternalNode :=
  { children := fun i => if i.val = 0 then some ⟨1⟩ else none }

/-- Node 1 is a branch whose only child (slot 0) is node 2, which the
store fails to provide. -/
def c4Node1 : InternalNode :=
  { children := fun i => if i.val = 0 then some ⟨2⟩ else none }

/-- Store with nodes 0 and 1 present and every other read failing. -/
def c4Reader : TreeReader Unit Unit := fun k =>
  if k = 0 then .ok (.Internal c4Node0)
  else if k = 1 then .ok (.Internal c4Node1)
  else .error "io error"

/-- Frame for node 0 with the cursor at its only child. -/
def c4Frame0 : NodeVisitInfo :=
  { node_key := 0, node := c4Node0, children_bitmap := 1, next_child_to_visit := 1 }

/-- Frame for node 1 with the cursor at its only child. -/
def c4Frame1 : NodeVisitInfo :=
  { node_key := 1, node := c4Node1, children_bitmap := 1, next_child_to_visit := 1 }

/-- Iterator state about to descend from node 0. -/
def c4State : JellyfishMerkleIterator Unit Unit :=
  { state_root_hash := 0, parent_stack := [c4Frame0], done := false }

/-- The state after the failed pull: the frame for node 1, read
successfully during the descent, stays on the stack. -/
def c4State2 : JellyfishMerkleIterator Unit Unit :=
  { state_root_hash := 0, parent_stack := [c4Frame1, c4Frame0], done := false }

/-- C4, counterexample: on this store a pull returns the storage failure
with the Traversal Stack grown from one frame to two, so the stack after
the call differs from the stack before it. -/
theorem claim_C4_counterexample :
    JellyfishMerkleIterator.next c4Reader 5 c4State = .ok (some (.error "io error"), c4State2) ∧
    c4State2.parent_stack ≠ c4State.parent_stack := by
  refine ⟨rfl, fun h => ?_⟩
  have h2 := congrArg List.length h
  simp [c4State, c4State2] at h2

/-- C4, witness: the amended statement instantiated on the concrete
failing store. -/
theorem claim_C4_witness :
    (∃ fs, c4State2.parent_stack = fs ++ c4State.parent_stack) ∧
    c4State2.done = c4State.done ∧ c4State2.state_root_hash = c4State.state_root_hash ∧
    ∀ fuel', JellyfishMerkleIterator.next c4Reader (fuel' + 1) c4State2 =
      .ok (some (.error "io error"), c4State2) :=
  @claim_C4 Unit Unit c4Reader 5 c4State c4State2 "io error" rfl

/-- C5, amended: when the descent loop reads an Empty (null) node for the
child referenced by the top frame's cursor, the condition is reported
through the ordinary failure channel used for storage errors — the pull
returns `Some(Err("Should not reach a null node."))` with the iterator
state unchanged — not as a fatal (panicking) condition. -/
theorem claim_C5 {K V : Type} {reader : TreeReader K V} {fuel : Nat}
    {s : JellyfishMerkleIterator K V} {f : NodeVisitInfo}
    {rest : List NodeVisitInfo} {c : Child}
    (hdone : s.done = false) (hstack : s.parent_stack = f :: rest)
    (h16 : tz16 f.next_child_to_visit < 16)
    (hchild : f.node.child ⟨tz16 f.next_child_to_visit, h16⟩ = some c)
    (hnull : reader c.hash = .ok .Null) :
    JellyfishMerkleIterator.next reader (fuel + 1) s =
      .ok (some (.error "Should not reach a null node."), s) := by
  obtain ⟨rt, stt, dn⟩ := s
  dsimp only at hdone hstack
  subst hdone hstack
  rw [JellyfishMerkleIterator.next]
  rw [if_neg (by simp)]
  dsimp only
  rw [descendLoop_error_stable h16 hchild (Or.inr ⟨hnull, rfl⟩) fuel]

/-- A store for exercising the null-child condition: node 0 is a branch
whose only child (slot 0) is node 1, and node 1 is Empty. -/
def c5Node0 : InternalNode :=
  { children := fun i => if i.val = 0 then some ⟨1⟩ else none }

/-- Store with node 0 a branch and node 1 Empty. -/
def c5Reader : TreeReader Unit Unit := fun k =>
  if k = 0 then .ok (.Internal c5Node0)
  else if k = 1 then .ok .Null
  else .error "missing node"

/-- Frame for node 0 with the cursor at its only child. -/
def c5Frame0 : NodeVisitInfo :=
  { node_key := 0, node := c5Node0, children_bitmap := 1, next_child_to_visit := 1 }

/-- Iterator state about to descend into the Empty node. -/
def c5State : JellyfishMerkleIterator Unit Unit :=
  { state_root_hash := 0, parent_stack := [c5Frame0], done := false }

/-- C5, counterexample: the pull hitting the Empty child returns
normally (no panic) and its item is `Some(Err(..))` — the same
`Option<Result>` channel a storage failure uses, with the state kept. -/
theorem claim_C5_counterexample :
    JellyfishMerkleIterator.next c5Reader 2 c5State =
      .ok (some (.error "Should not reach a null node."), c5State) ∧
    (JellyfishMerkleIterator.next c5Reader 2 c5State).isOk = true := by
  exact ⟨rfl, rfl⟩

/-- C5, witness: the amended statement instantiated on the concrete
store with an Empty child. -/
theorem claim_C5_witness :
    JellyfishMerkleIterator.next c5Reader 3 c5State =
      .ok (some (.error "Should not reach a null node."), c5State) :=
  @claim_C5 Unit Unit c5Reader 2 c5State c5Frame0 [] ⟨1⟩ rfl rfl (by decide)
    rfl rfl

/-- C3: once a pull yields nothing, the state is unchanged and every
subsequent pull on the same instance — for any fuel and any number of
successive pulls — also yields nothing. -/
theorem claim_C3 {K V : Type} {reader : TreeReader K V} {fuel : Nat}
    {s s' : JellyfishMerkleIterator K V}
    (h : JellyfishMerkleIterator.next reader fuel s = .ok (none, s')) :
    ∀ fuel2, JellyfishMerkleIterator.next reader fuel2 s' = .ok (none, s') ∧
      ∀ n, JellyfishMerkleIterator.runPulls reader fuel2 s' n =
        .ok (List.replicate n none, s') := by
  obtain ⟨hs, hall⟩ := next_none_stable h
  subst hs
  intro fuel2
  exact ⟨hall fuel2, fun n => runPulls_none_forever hall n fuel2⟩

/-- An exhausted iterator over an arbitrary store. -/
def c3Reader : TreeReader Unit Unit := fun _ => .error "missing node"

/-- An exhausted iterator state (`done` set). -/
def c3State : JellyfishMerkleIterator Unit Unit :=
  { state_root_hash := 0, parent_stack := [], done := true }

/-- C3, witness: the exhausted instance keeps yielding nothing. -/
theorem claim_C3_witness :
    JellyfishMerkleIterator.next c3Reader 7 c3State = .ok (none, c3State) ∧
    JellyfishMerkleIterator.runPulls c3Reader 7 c3State 3 =
      .ok (List.replicate 3 none, c3State) :=
  ⟨(@claim_C3 Unit Unit c3Reader 1 c3State c3State rfl 7).1,
   (@claim_C3 Unit Unit c3Reader 1 c3State c3State rfl 7).2 3⟩

/-- C9: on a snapshot whose root is a single Terminal node, construction
with a starting key at or below the stored key gives an iterator that
yields exactly that pair and then nothing, and construction with a
starting key above it gives an iterator that yields nothing on every
pull. -/
theorem claim_C9 {K V : Type} {reader : TreeReader K V} {root : NodeKey}
    {l : LeafNode K V} {start : SMTObject K}
    (hroot : reader root = .ok (.Leaf l)) :
    (hashLe start.merkle_hash l.key.merkle_hash = true →
      JellyfishMerkleIterator.new reader root start =
        .ok (.ok { state_root_hash := root, parent_stack := [], done := false }) ∧
      ∀ n fuel, JellyfishMerkleIterator.runPulls reader fuel
          { state_root_hash := root, parent_stack := [], done := false } (n + 1) =
        .ok (some (.ok (l.key, l.value)) :: List.replicate n none,
          { state_root_hash := root, parent_stack := [], done := true })) ∧
    (hashLt l.key.merkle_hash start.merkle_hash = true →
      JellyfishMerkleIterator.new reader root start =
        .ok (.ok { state_root_hash := root, parent_stack := [], done := true }) ∧
      ∀ n fuel, JellyfishMerkleIterator.runPulls reader fuel
          { state_root_hash := root, parent_stack := [], done := true } n =
        .ok (List.replicate n none,
          { state_root_hash := root, parent_stack := [], done := true })) := by
  constructor
  · intro hle
    have hlt : hashLt l.key.merkle_hash start.merkle_hash = false := by
      rw [hashLe] at hle
      simpa using hle
    constructor
    · rw [JellyfishMerkleIterator.new]
      rw [JellyfishMerkleIterator.seekLoop, hroot]
      dsimp only
      rw [if_neg (by simp [hlt])]
    · intro n fuel
      rw [JellyfishMerkleIterator.runPulls, JellyfishMerkleIterator.next]
      rw [if_neg (by simp)]
      dsimp only
      rw [hroot]
      dsimp only
      rw [runPulls_done rfl n fuel]
  · intro hlt2
    constructor
    · rw [JellyfishMerkleIterator.new]
      rw [JellyfishMerkleIterator.seekLoop, hroot]
      dsimp only
      rw [if_pos hlt2]
      rfl
    · intro n fuel
      exact runPulls_done rfl n fuel

/-- A single stored pair whose key has fingerprint `[5]`. -/
def w9Leaf : LeafNode Unit Unit :=
  { key := { origin := (), hash := [(5 : Fin 16)] },
    value := { origin := (), hash := [(9 : Fin 16)] } }

/-- Store whose root (node 0) is the single Terminal node. -/
def w9Reader : TreeReader Unit Unit := fun k =>
  if k = 0 then .ok (.Leaf w9Leaf) else .error "missing node"

/-- A starting key below the stored key. -/
def w9Start : SMTObject Unit := { origin := (), hash := [(3 : Fin 16)] }

/-- A starting key above the stored key. -/
def w9StartHi : SMTObject Unit := { origin := (), hash := [(7 : Fin 16)] }

/-- C9, witness: both branches instantiated on the concrete single-leaf
snapshot. -/
theorem claim_C9_witness :
    (JellyfishMerkleIterator.new w9Reader 0 w9Start =
       .ok (.ok { state_root_hash := 0, parent_stack := [], done := false }) ∧
     JellyfishMerkleIterator.runPulls w9Reader 2
         { state_root_hash := 0, parent_stack := [], done := false } 3 =
       .ok (some (.ok (w9Leaf.key, w9Leaf.value)) :: List.replicate 2 none,
         { state_root_hash := 0, parent_stack := [], done := true })) ∧
    (JellyfishMerkleIterator.new w9Reader 0 w9StartHi =
       .ok (.ok { state_root_hash := 0, parent_stack := [], done := true }) ∧
     JellyfishMerkleIterator.runPulls w9Reader 2
         { state_root_hash := 0, parent_stack := [], done := true } 4 =
       .ok (List.replicate 4 none,
         { state_root_hash := 0, parent_stack := [], done := true })) :=
  ⟨⟨((@claim_C9 Unit Unit w9Reader 0 w9Leaf w9Start rfl).1 (by decide)).1,
    ((@claim_C9 Unit Unit w9Reader 0 w9Leaf w9Start rfl).1 (by decide)).2 2 2⟩,
   ⟨((@claim_C9 Unit Unit w9Reader 0 w9Leaf w9StartHi rfl).2 (by decide)).1,
    ((@claim_C9 Unit Unit w9Reader 0 w9Leaf w9StartHi rfl).2 (by decide)).2 4 2⟩⟩

/-- C8: when the existence bitmap has a set bit at or above nibble `n`,
`new_next_child_to_visit` terminates and builds a frame whose cursor is
`1 <<< m` for `m` the least set position at or above `n`. -/
theorem claim_C8 (k : NodeKey) (nd : InternalNode) (n : Nibble)
    (hex : ∃ j, n.val ≤ j ∧ j < 16 ∧ nd.generate_bitmaps.testBit j = true) :
    ∃ m, n.val ≤ m ∧ m < 16 ∧ nd.generate_bitmaps.testBit m = true ∧
      (∀ j, n.val ≤ j → j < m → nd.generate_bitmaps.testBit j = false) ∧
      NodeVisitInfo.new_next_child_to_visit k nd n =
        .ok { node_key := k, node := nd, children_bitmap := nd.generate_bitmaps,
              next_child_to_visit := 1 <<< m } := by
  obtain ⟨m, hm1, hm2, hm3, hm4, heq⟩ := new_next_child_to_visit_spec k nd n hex
  refine ⟨m, hm1, hm2, hm3, hm4, ?_⟩
  rw [heq]
  simp only [Nat.shiftLeft_eq, one_mul]

/-- A branch with children at slots 2 and 5 only. -/
def w8Node : InternalNode :=
  { children := fun i =>
      if i.val = 2 then some ⟨1⟩ else if i.val = 5 then some ⟨1⟩ else none }

/-- C8, witness: scanning from nibble 3 over the bitmap with bits 2 and
5 lands the cursor on bit 5. -/
theorem claim_C8_witness :
    (∃ j, (3 : Fin 16).val ≤ j ∧ j < 16 ∧ w8Node.generate_bitmaps.testBit j = true) ∧
    (∃ m, (3 : Fin 16).val ≤ m ∧ m < 16 ∧ w8Node.generate_bitmaps.testBit m = true ∧
      (∀ j, (3 : Fin 16).val ≤ j → j < m → w8Node.generate_bitmaps.testBit j = false) ∧
      NodeVisitInfo.new_next_child_to_visit 7 w8Node (3 : Fin 16) =
        .ok { node_key := 7, node := w8Node,
              children_bitmap := w8Node.generate_bitmaps,
              next_child_to_visit := 1 <<< m }) :=
  ⟨⟨5, by decide, by decide, by decide⟩,
   claim_C8 7 w8Node (3 : Fin 16) ⟨5, by decide, by decide, by decide⟩⟩

/-- C7: starting from a freshly constructed iterator, every frame on the
Traversal Stack satisfies the cursor invariant (single-bit cursor whose
bit is set in the existence bitmap, hence at or below its highest set
bit); the invariant still holds after any number of pulls; and on any
stack of invariant frames `cleanup_stack` returns without panicking —
in particular it never advances a rightmost frame — with the invariant
preserved. -/
theorem claim_C7 {K V : Type} {reader : TreeReader K V} {root : NodeKey}
    {start : SMTObject K} {s0 sN : JellyfishMerkleIterator K V}
    {items : List (Option (Except String (SMTObject K × SMTObject V)))}
    {fuel n : Nat}
    (hnew : JellyfishMerkleIterator.new reader root start = .ok (.ok s0))
    (hrun : JellyfishMerkleIterator.runPulls reader fuel s0 n = .ok (items, sN)) :
    (∀ f ∈ s0.parent_stack, FrameInv f) ∧
    (∀ f ∈ sN.parent_stack, FrameInv f) ∧
    (∀ st, (∀ f ∈ st, FrameInv f) →
      ∃ st', JellyfishMerkleIterator.cleanup_stack st = .ok st' ∧
        ∀ f ∈ st', FrameInv f) := by
  have h0 : ∀ f ∈ s0.parent_stack, FrameInv f := by
    rw [JellyfishMerkleIterator.new] at hnew
    dsimp only [SMTObject.merkle_hash] at hnew
    cases hseek : JellyfishMerkleIterator.seekLoop reader start.hash
        start.hash root [] with
    | error p => rw [hseek] at hnew; exact absurd hnew (by simp)
    | ok r =>
      rw [hseek] at hnew
      cases r with
      | error e => exact absurd hnew (by simp)
      | ok pr =>
        obtain ⟨st2, dn⟩ := pr
        simp only [Except.ok.injEq] at hnew
        rw [← hnew]
        show ∀ f ∈ st2, FrameInv f
        exact seekLoop_frames start.hash root [] st2 dn (by simp) hseek
  exact ⟨h0, runPulls_frames n s0 sN items h0 hrun,
    fun st hin => cleanup_frames st hin⟩

/-- C7, witness: the invariant instantiated over the single-leaf store
after one pull. -/
theorem claim_C7_witness :
    (∀ f ∈ ({ state_root_hash := 0, parent_stack := [], done := false } :
        JellyfishMerkleIterator Unit Unit).parent_stack, FrameInv f) ∧
    (∀ f ∈ ({ state_root_hash := 0, parent_stack := [], done := true } :
        JellyfishMerkleIterator Unit Unit).parent_stack, FrameInv f) ∧
    (∀ st, (∀ f ∈ st, FrameInv f) →
      ∃ st', JellyfishMerkleIterator.cleanup_stack st = .ok st' ∧
        ∀ f ∈ st', FrameInv f) :=
  @claim_C7 Unit Unit w9Reader 0 w9Start
    { state_root_hash := 0, parent_stack := [], done := false }
    { state_root_hash := 0, parent_stack := [], done := true }
    [some (.ok (w9Leaf.key, w9Leaf.value))] 2 1 rfl rfl

/-- Panics raised by `is_rightmost` carry a different message than the
nibble-exhaustion panic of `new`. -/
lemma is_rightmost_msg {f : NodeVisitInfo} {p : Panic}
    (h : f.is_rightmost = .error p) : p ≠ ⟨"Should have enough nibbles."⟩ := by
  rw [NodeVisitInfo.is_rightmost] at h
  by_cases hc : lz16 f.next_child_to_visit ≥ lz16 f.children_bitmap
  · rw [if_pos hc] at h
    exact absurd h (by simp)
  · rw [if_neg hc] at h
    simp only [Except.error.injEq] at h
    subst h
    decide

/-- Panics raised by `advance` carry a different message than the
nibble-exhaustion panic of `new`. -/
lemma advance_msg {f : NodeVisitInfo} {p : Panic}
    (h : f.advance = .error p) : p ≠ ⟨"Should have enough nibbles."⟩ := by
  rw [NodeVisitInfo.advance] at h
  cases hr : f.is_rightmost with
  | error p2 =>
    rw [hr] at h
    simp only [Except.error.injEq] at h
    subst h
    exact is_rightmost_msg hr
  | ok b =>
    rw [hr] at h
    cases b with
    | true =>
      simp only [Except.error.injEq] at h
      subst h
      decide
    | false =>
      dsimp only at h
      cases hs : whileScan f.children_bitmap
          ((f.next_child_to_visit <<< 1) % 65536) 17 with
      | some v => rw [hs] at h; exact absurd h (by simp)
      | none =>
        rw [hs] at h
        simp only [Except.error.injEq] at h
        subst h
        decide

/-- Panics raised by `new_next_child_to_visit` carry a different message
than the nibble-exhaustion panic of `new`. -/
lemma new_next_msg {k : NodeKey} {nd : InternalNode} {n : Nibble} {p : Panic}
    (h : NodeVisitInfo.new_next_child_to_visit k nd n = .error p) :
    p ≠ ⟨"Should have enough nibbles."⟩ := by
  rw [NodeVisitInfo.new_next_child_to_visit] at h
  cases hs : whileScan nd.generate_bitmaps (1 <<< n.val) 17 with
  | some v => rw [hs] at h; exact absurd h (by simp)
  | none =>
    rw [hs] at h
    simp only [Except.error.injEq] at h
    subst h
    decide

/-- Panics raised by `cleanup_stack` carry a different message than the
nibble-exhaustion panic of `new`. -/
lemma cleanup_msg : ∀ (st : List NodeVisitInfo) {p : Panic},
    JellyfishMerkleIterator.cleanup_stack st = .error p →
    p ≠ ⟨"Should have enough nibbles."⟩ := by
  intro st
  induction st with
  | nil =>
    intro p h
    exact absurd h (by simp [JellyfishMerkleIterator.cleanup_stack])
  | cons f rest ih =>
    intro p h
    rw [JellyfishMerkleIterator.cleanup_stack] at h
    cases hr : f.is_rightmost with
    | error p2 =>
      rw [hr] at h
      simp only [Except.error.injEq] at h
      subst h
      exact is_rightmost_msg hr
    | ok b =>
      rw [hr] at h
      cases b with
      | true => exact ih h
      | false =>
        dsimp only at h
        cases ha : f.advance with
        | error p2 =>
          rw [ha] at h
          simp only [Except.error.injEq] at h
          subst h
          exact advance_msg ha
        | ok f2 => rw [ha] at h; exact absurd h (by simp)

/-- When no chain of internal nodes longer than the remaining nibbles
runs below the current node, the seek loop never raises the
nibble-exhaustion panic. -/
lemma seekLoop_no_nibble_panic {K V : Type} {reader : TreeReader K V}
    {sh : HashValue} :
    ∀ (nibbles : List Nibble) (cur : NodeKey) (stack : List NodeVisitInfo),
      depthLe reader nibbles.length cur = true →
      JellyfishMerkleIterator.seekLoop reader sh nibbles cur stack ≠
        .error ⟨"Should have enough nibbles."⟩ := by
  intro nibbles
  induction nibbles with
  | nil =>
    intro cur stack hd h
    rw [JellyfishMerkleIterator.seekLoop] at h
    cases hr : reader cur with
    | error e => rw [hr] at h; exact absurd h (by simp)
    | ok nd =>
      rw [hr] at h
      cases nd with
      | Internal nd2 =>
        simp only [List.length_nil] at hd
        rw [depthLe, hr] at hd
        exact absurd hd (by simp)
      | Leaf l =>
        dsimp only at h
        by_cases hlt : hashLt l.key.merkle_hash sh = true
        · rw [if_pos hlt] at h
          cases hc : JellyfishMerkleIterator.cleanup_stack stack with
          | error p =>
            rw [hc] at h
            simp only [Except.error.injEq] at h
            exact absurd h (cleanup_msg stack hc)
          | ok st => rw [hc] at h; exact absurd h (by simp)
        · rw [if_neg hlt] at h
          exact absurd h (by simp)
      | Null =>
        dsimp only at h
        exact absurd h (by simp)
  | cons nb rest ih =>
    intro cur stack hd h
    rw [JellyfishMerkleIterator.seekLoop] at h
    cases hr : reader cur with
    | error e => rw [hr] at h; exact absurd h (by simp)
    | ok nd =>
      rw [hr] at h
      cases nd with
      | Leaf l =>
        dsimp only at h
        by_cases hlt : hashLt l.key.merkle_hash sh = true
        · rw [if_pos hlt] at h
          cases hc : JellyfishMerkleIterator.cleanup_stack stack with
          | error p =>
            rw [hc] at h
            simp only [Except.error.injEq] at h
            exact absurd h (cleanup_msg stack hc)
          | ok st => rw [hc] at h; exact absurd h (by simp)
        · rw [if_neg hlt] at h
          exact absurd h (by simp)
      | Null =>
        dsimp only at h
        exact absurd h (by simp)
      | Internal nd2 =>
        dsimp only at h
        simp only [List.length_cons] at hd
        rw [depthLe, hr] at hd
        dsimp only at hd
        cases hcb : nd2.child nb with
        | some child =>
          rw [hcb] at h
          dsimp only at h
          cases hnn : NodeVisitInfo.new_next_child_to_visit cur nd2 nb with
          | error p =>
            rw [hnn] at h
            simp only [Except.error.injEq] at h
            exact absurd h (new_next_msg hnn)
          | ok info =>
            rw [hnn] at h
            dsimp only at h
            have hca : nd2.childAt nb.val = some child := by
              rw [InternalNode.childAt, dif_pos nb.isLt, Fin.eta]
              exact hcb
            have hchild : depthLe reader rest.length child.hash = true :=
              depthChildrenAux_spec (depthLe reader rest.length) nd2 16 0 hd
                nb.val child (Nat.zero_le _) (by omega) hca
            exact ih child.hash (info :: stack) hchild h
        | none =>
          rw [hcb] at h
          dsimp only at h
          by_cases hb : nd2.generate_bitmaps = 0
          · rw [if_pos hb] at h
            simp only [Except.error.injEq] at h
            exact absurd h (by decide)
          · rw [if_neg hb] at h
            by_cases hcl : nb.val < 15 - lz16 nd2.generate_bitmaps
            · rw [if_pos hcl] at h
              cases hnn : NodeVisitInfo.new_next_child_to_visit cur nd2 nb with
              | error p =>
                rw [hnn] at h
                simp only [Except.error.injEq] at h
                exact absurd h (new_next_msg hnn)
              | ok info => rw [hnn] at h; exact absurd h (by simp)
            · rw [if_neg hcl] at h
              cases hc2 : JellyfishMerkleIterator.cleanup_stack stack with
              | error p =>
                rw [hc2] at h
                simp only [Except.error.injEq] at h
                exact absurd h (cleanup_msg stack hc2)
              | ok st => rw [hc2] at h; exact absurd h (by simp)

/-- C10: under the precondition that no root-to-leaf path is longer than
the starting key's fingerprint (one nibble consumed per internal node
descended), construction never raises the `"Should have enough
nibbles."` panic. -/
theorem claim_C10 {K V : Type} {reader : TreeReader K V} {root : NodeKey}
    {start : SMTObject K}
    (hdepth : depthLe reader start.hash.length root = true) :
    JellyfishMerkleIterator.new reader root start ≠
      .error ⟨"Should have enough nibbles."⟩ := by
  intro h
  rw [JellyfishMerkleIterator.new] at h
  dsimp only [SMTObject.merkle_hash] at h
  cases hseek : JellyfishMerkleIterator.seekLoop reader start.hash
      start.hash root [] with
  | error p =>
    rw [hseek] at h
    simp only [Except.error.injEq] at h
    subst h
    exact seekLoop_no_nibble_panic start.hash root [] hdepth hseek
  | ok r =>
    rw [hseek] at h
    cases r with
    | error e => exact absurd h (by simp)
    | ok pr =>
      obtain ⟨st, dn⟩ := pr
      exact absurd h (by simp)

/-- C10, witness: the depth precondition and panic-freedom instantiated
over the single-leaf store. -/
theorem claim_C10_witness :
    depthLe w9Reader w9Start.hash.length 0 = true ∧
    JellyfishMerkleIterator.new w9Reader 0 w9Start ≠
      .error ⟨"Should have enough nibbles."⟩ :=
  ⟨rfl, @claim_C10 Unit Unit w9Reader 0 w9Start rfl⟩

/-- C1: over a well-formed snapshot, the first pair yielded by a freshly
constructed iterator is a stored pair whose key fingerprint is at or
above the starting key's, and no stored key with fingerprint at or above
the starting key's lies strictly below it: the yield is the smallest
stored key ≥ the starting key. -/
theorem claim_C1 {K V : Type} {reader : TreeReader K V} {root : NodeKey}
    {hashLen : Nat} {start : SMTObject K}
    {s0 s1 : JellyfishMerkleIterator K V} {fuel : Nat}
    {k : SMTObject K} {v : SMTObject V}
    (hroot : wfNode reader hashLen hashLen root [] = true)
    (hlen : start.hash.length = hashLen)
    (hfuel : hashLen + 1 ≤ fuel)
    (hnew : JellyfishMerkleIterator.new reader root start = .ok (.ok s0))
    (hnext : JellyfishMerkleIterator.next reader fuel s0 =
      .ok (some (.ok (k, v)), s1)) :
    ∃ l ∈ leavesUnder reader (hashLen + 1) root,
      k = l.key ∧ v = l.value ∧ hashLe start.hash l.key.hash = true ∧
      ∀ l2 ∈ leavesUnder reader (hashLen + 1) root,
        hashLe start.hash l2.key.hash = true →
        hashLe l.key.hash l2.key.hash = true := by
  obtain ⟨s0', hnew', hsr, hwf, hsem⟩ := new_spec_iterator hroot hlen
  rw [hnew] at hnew'
  simp only [Except.ok.injEq] at hnew'
  subst hnew'
  obtain ⟨s1', hnx, hwf1, hsr1, hsem1⟩ :=
    next_spec (by rw [hsr]; exact hroot) (by rw [hsr]; exact hwf) hfuel
  rw [hnext] at hnx
  simp only [Except.ok.injEq, Prod.mk.injEq] at hnx
  obtain ⟨hkv, hs1⟩ := hnx
  cases hsl : SemL reader hashLen s0 with
  | nil => rw [hsl] at hkv; simp at hkv
  | cons l tl =>
    rw [hsl] at hkv
    have hk : k = l.key ∧ v = l.value := by simpa using hkv
    obtain ⟨hk1, hk2⟩ := hk
    have hmem : l ∈ (leavesUnder reader (hashLen + 1) root).filter
        (fun x => hashLe start.hash x.key.hash) := by
      rw [← hsem, hsl]
      simp
    have hmem2 := List.mem_filter.mp hmem
    refine ⟨l, hmem2.1, hk1, hk2, by simpa using hmem2.2, ?_⟩
    intro l2 hl2 hle2
    have hl2f : l2 ∈ (leavesUnder reader (hashLen + 1) root).filter
        (fun x => hashLe start.hash x.key.hash) :=
      List.mem_filter.mpr ⟨hl2, by simpa using hle2⟩
    rw [← hsem, hsl] at hl2f
    rcases List.mem_cons.mp hl2f with heq | htl
    · rw [heq]
      exact hashLe_refl _
    · have hpw := (leavesUnder_sorted hashLen root [] hroot).filter
        (fun x => hashLe start.hash x.key.hash)
      rw [← hsem, hsl] at hpw
      exact hashLe_of_hashLt ((List.pairwise_cons.mp hpw).1 l2 htl)

/-- C1, witness: the lower-bound property instantiated on the concrete
single-leaf snapshot. -/
theorem claim_C1_witness :
    ∃ l ∈ leavesUnder w9Reader (1 + 1) 0,
      w9Leaf.key = l.key ∧ w9Leaf.value = l.value ∧
      hashLe w9Start.hash l.key.hash = true ∧
      ∀ l2 ∈ leavesUnder w9Reader (1 + 1) 0,
        hashLe w9Start.hash l2.key.hash = true →
        hashLe l.key.hash l2.key.hash = true :=
  @claim_C1 Unit Unit w9Reader 0 1 w9Start
    { state_root_hash := 0, parent_stack := [], done := false }
    { state_root_hash := 0, parent_stack := [], done := true }
    2 w9Leaf.key w9Leaf.value rfl rfl (by decide) rfl rfl

/-- C2: over a well-formed snapshot, the keys yielded across any number
of successive pulls of one freshly constructed instance are strictly
increasing under the fingerprint order. -/
theorem claim_C2 {K V : Type} {reader : TreeReader K V} {root : NodeKey}
    {hashLen : Nat} {start : SMTObject K} {s0 : JellyfishMerkleIterator K V}
    {fuel n : Nat}
    (hroot : wfNode reader hashLen hashLen root [] = true)
    (hlen : start.hash.length = hashLen)
    (hfuel : hashLen + 1 ≤ fuel)
    (hnew : JellyfishMerkleIterator.new reader root start = .ok (.ok s0)) :
    ∃ items sN,
      JellyfishMerkleIterator.runPulls reader fuel s0 n = .ok (items, sN) ∧
      ((okYields items).map (fun p => p.1.hash)).Pairwise
        (fun a b => hashLt a b = true) := by
  obtain ⟨s0', hnew', hsr, hwf, hsem⟩ := new_spec_iterator hroot hlen
  rw [hnew] at hnew'
  simp only [Except.ok.injEq] at hnew'
  subst hnew'
  obtain ⟨items, sN, hrun, hok, _, _, _⟩ :=
    runPulls_spec hfuel n s0 (by rw [hsr]; exact hroot) (by rw [hsr]; exact hwf)
  refine ⟨items, sN, hrun, ?_⟩
  rw [hok, hsem, List.map_map]
  have hpw := (leavesUnder_sorted hashLen root [] hroot).filter
    (fun x => hashLe start.hash x.key.hash)
  have hpw2 := List.Pairwise.sublist (List.take_sublist n _) hpw
  exact List.Pairwise.map _ (fun a b h => h) hpw2

/-- C2, witness: strict ascent of the yield sequence instantiated on the
concrete single-leaf snapshot. -/
theorem claim_C2_witness :
    ∃ items sN,
      JellyfishMerkleIterator.runPulls w9Reader 2
        { state_root_hash := 0, parent_stack := [], done := false } 2 =
        .ok (items, sN) ∧
      ((okYields items).map (fun p => p.1.hash)).Pairwise
        (fun a b => hashLt a b = true) :=
  @claim_C2 Unit Unit w9Reader 0 1 w9Start
    { state_root_hash := 0, parent_stack := [], done := false }
    2 2 rfl rfl (by decide) rfl

/-- The owning-iterator state holding the same traversal data as a
borrowed-iterator state (the two structs carry identical fields). -/
def toOwned {K V : Type} (s : JellyfishMerkleIterator K V) :
    JellyfishMerkleIntoIterator K V :=
  { state_root_hash := s.state_root_hash, parent_stack := s.parent_stack,
    done := s.done }

/-- The duplicated `cleanup_stack` bodies agree. -/
lemma cleanup_eq : ∀ st : List NodeVisitInfo,
    JellyfishMerkleIntoIterator.cleanup_stack st =
    JellyfishMerkleIterator.cleanup_stack st := by
  intro st
  induction st with
  | nil => rfl
  | cons f rest ih =>
    rw [JellyfishMerkleIntoIterator.cleanup_stack,
      JellyfishMerkleIterator.cleanup_stack]
    cases hr : f.is_rightmost with
    | error p => rfl
    | ok b =>
      cases b with
      | true => exact ih
      | false => rfl

/-- The duplicated seek loops agree. -/
lemma seekLoop_eq {K V : Type} (reader : TreeReader K V) (sh : HashValue) :
    ∀ (nibbles : List Nibble) (cur : NodeKey) (stack : List NodeVisitInfo),
      JellyfishMerkleIntoIterator.seekLoop reader sh nibbles cur stack =
      JellyfishMerkleIterator.seekLoop reader sh nibbles cur stack := by
  intro nibbles
  induction nibbles with
  | nil =>
    intro cur stack
    rw [JellyfishMerkleIntoIterator.seekLoop, JellyfishMerkleIterator.seekLoop]
    cases hr : reader cur with
    | error e => rfl
    | ok nd =>
      cases nd with
      | Internal nd2 => rfl
      | Leaf l =>
        dsimp only
        rw [cleanup_eq]
      | Null => rfl
  | cons nb rest ih =>
    intro cur stack
    rw [JellyfishMerkleIntoIterator.seekLoop, JellyfishMerkleIterator.seekLoop]
    cases hr : reader cur with
    | error e => rfl
    | ok nd =>
      cases nd with
      | Leaf l =>
        dsimp only
        rw [cleanup_eq]
      | Null => rfl
      | Internal nd2 =>
        dsimp only
        cases hcb : nd2.child nb with
        | none =>
          dsimp only
          rw [cleanup_eq]
        | some child =>
          dsimp only
          cases hnn : NodeVisitInfo.new_next_child_to_visit cur nd2 nb with
          | error p => rfl
          | ok info =>
            dsimp only
            exact ih child.hash (info :: stack)

/-- The duplicated descent loops agree. -/
lemma descendLoop_eq {K V : Type} (reader : TreeReader K V) :
    ∀ (fuel : Nat) (stack : List NodeVisitInfo),
      JellyfishMerkleIntoIterator.descendLoop reader stack fuel =
      JellyfishMerkleIterator.descendLoop reader stack fuel := by
  intro fuel
  induction fuel with
  | zero => intro stack; rfl
  | succ fuel ih =>
    intro stack
    cases stack with
    | nil => rfl
    | cons info rest =>
      rw [JellyfishMerkleIntoIterator.descendLoop,
        JellyfishMerkleIterator.descendLoop]
      by_cases h16 : tz16 info.next_child_to_visit < 16
      · rw [dif_pos h16, dif_pos h16]
        cases hcb : info.node.child ⟨tz16 info.next_child_to_visit, h16⟩ with
        | none => rfl
        | some child =>
          dsimp only
          cases hr : reader child.hash with
          | error e => rfl
          | ok nd =>
            cases nd with
            | Internal nd2 =>
              dsimp only
              cases hvn : NodeVisitInfo.new child.hash nd2 with
              | error p => rfl
              | ok vi =>
                dsimp only
                exact ih (vi :: info :: rest)
            | Leaf l =>
              dsimp only
              rw [cleanup_eq]
            | Null => rfl
      · rw [dif_neg h16, dif_neg h16]

/-- The duplicated pull operations agree up to `toOwned`. -/
lemma next_eq {K V : Type} (reader : TreeReader K V) (fuel : Nat)
    (s : JellyfishMerkleIterator K V) :
    JellyfishMerkleIntoIterator.next reader fuel (toOwned s) =
      (JellyfishMerkleIterator.next reader fuel s).map
        (fun p => (p.1, toOwned p.2)) := by
  obtain ⟨rt, stack, dn⟩ := s
  rw [JellyfishMerkleIntoIterator.next, JellyfishMerkleIterator.next]
  dsimp only [toOwned]
  cases dn with
  | true => rfl
  | false =>
    rw [if_neg (by simp : ¬(false = true))]
    rw [if_neg (by simp : ¬(false = true))]
    cases stack with
    | nil =>
      cases hr : reader rt with
      | error e => rfl
      | ok nd =>
        cases nd with
        | Leaf l => rfl
        | Internal nd2 => rfl
        | Null => rfl
    | cons f rest =>
      dsimp only
      rw [descendLoop_eq]
      cases hd : JellyfishMerkleIterator.descendLoop reader (f :: rest) fuel with
      | error p => rfl
      | ok pr =>
        obtain ⟨item, st⟩ := pr
        rfl

/-- Runs of successive pulls of the two variants agree up to
`toOwned`. -/
lemma runPulls_eq {K V : Type} (reader : TreeReader K V) (fuel : Nat) :
    ∀ (n : Nat) (s : JellyfishMerkleIterator K V),
      JellyfishMerkleIntoIterator.runPulls reader fuel (toOwned s) n =
        (JellyfishMerkleIterator.runPulls reader fuel s n).map
          (fun p => (p.1, toOwned p.2)) := by
  intro n
  induction n with
  | zero => intro s; rfl
  | succ n ih =>
    intro s
    rw [JellyfishMerkleIntoIterator.runPulls, JellyfishMerkleIterator.runPulls]
    rw [next_eq]
    cases hx : JellyfishMerkleIterator.next reader fuel s with
    | error p => rfl
    | ok pr =>
      obtain ⟨item, s1⟩ := pr
      dsimp only [Except.map]
      rw [ih s1]
      cases hr : JellyfishMerkleIterator.runPulls reader fuel s1 n with
      | error p => rfl
      | ok pr2 =>
        obtain ⟨items, s2⟩ := pr2
        rfl

/-- C6: for every store, root, and starting key, the owning iterator
constructed from the key's fingerprint behaves exactly like the borrowed
iterator constructed from the key — construction agrees (same panics,
same failures, same initial state up to the state coercion), and every
run of successive pulls gives the same items, errors, and final state. -/
theorem claim_C6 {K V : Type} (reader : TreeReader K V) (root : NodeKey)
    (start : SMTObject K) (fuel n : Nat) :
    JellyfishMerkleIntoIterator.new reader root start.merkle_hash =
      (JellyfishMerkleIterator.new reader root start).map (Except.map toOwned) ∧
    ∀ s : JellyfishMerkleIterator K V,
      JellyfishMerkleIntoIterator.runPulls reader fuel (toOwned s) n =
        (JellyfishMerkleIterator.runPulls reader fuel s n).map
          (fun p => (p.1, toOwned p.2)) := by
  constructor
  · rw [JellyfishMerkleIntoIterator.new, JellyfishMerkleIterator.new]
    rw [seekLoop_eq]
    cases hs : JellyfishMerkleIterator.seekLoop reader start.merkle_hash
        start.merkle_hash root [] with
    | error p => rfl
    | ok r =>
      cases r with
      | error e => rfl
      | ok pr =>
        obtain ⟨st, dn⟩ := pr
        rfl
  · exact fun s => runPulls_eq reader fuel n s
